import Mathlib

/-!
# Alternating disks (`disks.hpp`)

A shallow embedding of `disks.hpp`: the row of disks `disk_state`, the result
record `sorted_disks`, and the two sorting procedures `sort_alternate` and
`sort_lawnmower`.

Modelling conventions.

* A row is the list of its colours (`std::vector<disk_color>`).
* A call that trips an `assert` (or indexes a vector out of range) yields
  `none`; everything that runs to completion yields `some`.
* Every `for` loop is a recursive function over a fuel argument that mirrors
  the loop header; running out of fuel is `none` as well, so a result
  `some _` always means that the loop left through its own exit test.
* Sizes, indices and the swap tally are natural numbers: `light_count * 2`
  is the product in the naturals, and the tally is the number of swaps
  performed, counted without a machine bound.  The one `size_t` wrap-around
  that a loop header can meet on a row is `total_count() - 1` on the empty
  row, modelled by `size_sub_one`.
* The text of `to_string()` is built as the list of characters written to
  the stream.
* The list functions of the second part (`pair_pass`, `sweep_right`,
  `sweep_left` and the passes built from them) are not part of the embedding:
  they describe what the loops compute, and every use of them rests on a
  theorem that equates them with the loops.
-/

namespace Disks

/-- The enumeration `enum disk_color { DISK_LIGHT, DISK_DARK }`. -/
inductive disk_color where
  | DISK_LIGHT
  | DISK_DARK
deriving DecidableEq

open disk_color

/-- Integral value of an enumerator: `DISK_LIGHT` is 0 and `DISK_DARK` is 1. -/
def disk_color.toNat : disk_color → Nat
  | DISK_LIGHT => 0
  | DISK_DARK => 1

/-- The class `disk_state`: its only member is the vector `_colors`. -/
structure disk_state where
  _colors : List disk_color
deriving DecidableEq

/-- Largest value of `size_t` (64-bit targets). -/
def SIZE_MAX : Nat := 2 ^ 64 - 1

/-- The `size_t` expression `n - 1`, which wraps to `SIZE_MAX` when `n` is 0. -/
def size_sub_one (n : Nat) : Nat := if n = 0 then SIZE_MAX else n - 1

/-- The constructor loop
`for (size_t i = 1; i < _colors.size(); i += 2) _colors[i] = DISK_DARK;`. -/
def ctor_loop : Nat → Nat → List disk_color → Option (List disk_color)
  | 0, _, _ => none
  | fuel + 1, i, cs =>
    if i < cs.length then ctor_loop fuel (i + 2) (cs.set i DISK_DARK) else some cs

/-- The constructor `disk_state::disk_state(size_t light_count)`: a vector of
`light_count * 2` light disks, `assert(light_count > 0)`, then every odd index
is made dark. -/
def disk_state.ctor (light_count : Nat) : Option disk_state :=
  let cs := List.replicate (light_count * 2) DISK_LIGHT
  if 0 < light_count then
    (ctor_loop (cs.length + 1) 1 cs).map disk_state.mk
  else none

/-- The three-iterator `std::equal(first1, last1, first2)`: walks the first
range, reading the second in step; reading past the end of the second range is
undefined and reported as `none`. -/
def std_equal : List disk_color → List disk_color → Option Bool
  | [], _ => some true
  | _ :: _, [] => none
  | a :: as, b :: bs => if a = b then std_equal as bs else some false

/-- The member `operator==`. -/
def disk_state.operator_eq (lhs rhs : disk_state) : Option Bool :=
  std_equal lhs._colors rhs._colors

/-- The member `total_count()`. -/
def disk_state.total_count (s : disk_state) : Nat := s._colors.length

/-- The member `light_count()`. -/
def disk_state.light_count (s : disk_state) : Nat := s.total_count / 2

/-- The member `is_index(i)`. -/
def disk_state.is_index (s : disk_state) (i : Nat) : Bool := decide (i < s.total_count)

/-- The member `get(index)`: `assert(is_index(index))`, then `_colors[index]`. -/
def disk_state.get (s : disk_state) (index : Nat) : Option disk_color :=
  if s.is_index index then s._colors[index]? else none

/-- The member `swap(left_index)`: both asserts, then `std::swap` of the two
neighbouring cells. -/
def disk_state.swap (s : disk_state) (left_index : Nat) : Option disk_state :=
  if s.is_index left_index then
    let right_index := left_index + 1
    if s.is_index right_index then
      match s._colors[left_index]?, s._colors[right_index]? with
      | some a, some b => some ⟨(s._colors.set left_index b).set right_index a⟩
      | _, _ => none
    else none
  else none

/-- The member `swap(left_index)` as a transformer of the stored row: the row
as it stands when the call ends, and whether the call ended normally (`true`)
or in a failed assert (`false`).  Both asserts come before `std::swap`. -/
def disk_state.swap_run (s : disk_state) (left_index : Nat) : disk_state × Bool :=
  if s.is_index left_index then
    let right_index := left_index + 1
    if s.is_index right_index then
      match s._colors[left_index]?, s._colors[right_index]? with
      | some a, some b => (⟨(s._colors.set left_index b).set right_index a⟩, true)
      | _, _ => (s, false)
    else (s, false)
  else (s, false)

/-- The loop of `to_string()`, `for (auto color : _colors)`: `first` is the
flag of that name and `ss` holds the characters written to the stream so
far. -/
def to_string_loop : List disk_color → Bool → List Char → List Char
  | [], _, ss => ss
  | color :: rest, first, ss =>
    let ss1 := if !first then ss ++ [' '] else ss
    let ss2 := if color = DISK_LIGHT then ss1 ++ ['L'] else ss1 ++ ['D']
    to_string_loop rest false ss2

/-- The member `to_string()`: the characters of the stream, as a string. -/
def disk_state.to_string (s : disk_state) : String :=
  String.mk (to_string_loop s._colors true [])

/-- The loop of `is_initialized()`, from index `i` on. -/
def disk_state.is_initialized_loop (s : disk_state) : Nat → Nat → Option Bool
  | 0, _ => none
  | fuel + 1, i =>
    if i < s.total_count then
      match s._colors[i]? with
      | none => none
      | some c =>
        if i % 2 = 0 then
          if c = DISK_DARK then some false else s.is_initialized_loop fuel (i + 1)
        else
          if c = DISK_LIGHT then some false else s.is_initialized_loop fuel (i + 1)
    else some true

/-- The member `is_initialized()`. -/
def disk_state.is_initialized (s : disk_state) : Option Bool :=
  s.is_initialized_loop (s.total_count + 1) 0

/-- The loop of `is_sorted()`, from index `i` on.  The second test is
`get(i == DISK_LIGHT && i > total_count() / 2)`: the conjunction is a `bool`,
converted to the index 0 or 1, and the colour read there is converted back to
`bool` (true exactly for `DISK_DARK`). -/
def disk_state.is_sorted_loop (s : disk_state) : Nat → Nat → Option Bool
  | 0, _ => none
  | fuel + 1, i =>
    if i < s.total_count then
      match s.get i with
      | none => none
      | some c =>
        if c = DISK_DARK ∧ i < s.total_count / 2 then some false
        else
          let b : Bool := decide (i = DISK_LIGHT.toNat ∧ i > s.total_count / 2)
          match s.get (if b then 1 else 0) with
          | none => none
          | some c2 =>
            if c2.toNat ≠ 0 then some false else s.is_sorted_loop fuel (i + 1)
    else some true

/-- The member `is_sorted()`. -/
def disk_state.is_sorted (s : disk_state) : Option Bool :=
  s.is_sorted_loop (s.total_count + 1) 0

/-- The class `sorted_disks`: the final row and the number of swaps. -/
structure sorted_disks where
  _after : disk_state
  _swap_count : Nat
deriving DecidableEq

/-- The member `after()`. -/
def sorted_disks.after (r : sorted_disks) : disk_state := r._after

/-- The member `swap_count()`. -/
def sorted_disks.swap_count (r : sorted_disks) : Nat := r._swap_count

/-- The statement
`if (disks.get(j) == DISK_DARK && disks.get(j + 1) == DISK_LIGHT) { disks.swap(j); numOfSwap++; }`
on the pair (working row, tally); `&&` evaluates its right operand only when
the left one holds. -/
def swap_if_dark_light (st : disk_state × Nat) (j : Nat) : Option (disk_state × Nat) :=
  match st.1.get j with
  | none => none
  | some a =>
    if a = DISK_DARK then
      match st.1.get (j + 1) with
      | none => none
      | some b =>
        if b = DISK_LIGHT then
          match st.1.swap j with
          | none => none
          | some d => some (d, st.2 + 1)
        else some st
    else some st

/-- The statement
`if (disks.get(k) == DISK_LIGHT && disks.get(k - 1) == DISK_DARK) { disks.swap(k - 1); numOfSwap++; }`
of the right-to-left sweep. -/
def swap_if_light_dark (st : disk_state × Nat) (k : Nat) : Option (disk_state × Nat) :=
  match st.1.get k with
  | none => none
  | some a =>
    if a = DISK_LIGHT then
      match st.1.get (k - 1) with
      | none => none
      | some b =>
        if b = DISK_DARK then
          match st.1.swap (k - 1) with
          | none => none
          | some d => some (d, st.2 + 1)
        else some st
    else some st

/-- The two inner loops of `sort_alternate`,
`for (int j = start; j < disks.total_count() - 1; j += 2)`, with `start` 0 for
the even pairs and 1 for the odd pairs. -/
def sort_alternate_inner : Nat → Nat → disk_state × Nat → Option (disk_state × Nat)
  | 0, _, _ => none
  | fuel + 1, j, st =>
    if j < size_sub_one st.1.total_count then
      match swap_if_dark_light st j with
      | none => none
      | some st1 => sort_alternate_inner fuel (j + 2) st1
    else some st

/-- The outer loop of `sort_alternate`,
`for (int i = 0; i < disks.total_count() - 1; i++)`. -/
def sort_alternate_outer : Nat → Nat → disk_state × Nat → Option (disk_state × Nat)
  | 0, _, _ => none
  | fuel + 1, i, st =>
    if i < size_sub_one st.1.total_count then
      if i % 2 = 0 then
        match sort_alternate_inner (size_sub_one st.1.total_count + 1) 0 st with
        | none => none
        | some st1 => sort_alternate_outer fuel (i + 1) st1
      else if i % 2 = 1 then
        match sort_alternate_inner (size_sub_one st.1.total_count + 1) 1 st with
        | none => none
        | some st1 => sort_alternate_outer fuel (i + 1) st1
      else sort_alternate_outer fuel (i + 1) st
    else some st

/-- The function `sort_alternate`. -/
def sort_alternate (before : disk_state) : Option sorted_disks :=
  match sort_alternate_outer (size_sub_one before.total_count + 1) 0 (before, 0) with
  | none => none
  | some st => some ⟨st.1, st.2⟩

/-- The left-to-right sweep of `sort_lawnmower`,
`for (int j = 0; j < disks.total_count() - 1; j++)`. -/
def sort_lawnmower_right : Nat → Nat → disk_state × Nat → Option (disk_state × Nat)
  | 0, _, _ => none
  | fuel + 1, j, st =>
    if j < size_sub_one st.1.total_count then
      match swap_if_dark_light st j with
      | none => none
      | some st1 => sort_lawnmower_right fuel (j + 1) st1
    else some st

/-- The right-to-left sweep of `sort_lawnmower`,
`for (int k = disks.total_count() - 1; k > 0; k--)`. -/
def sort_lawnmower_left : Nat → Nat → disk_state × Nat → Option (disk_state × Nat)
  | 0, _, _ => none
  | fuel + 1, k, st =>
    if k > 0 then
      match swap_if_light_dark st k with
      | none => none
      | some st1 => sort_lawnmower_left fuel (k - 1) st1
    else some st

/-- The outer loop of `sort_lawnmower`,
`for (int i = 0; i < disks.light_count(); i++)`: one sweep to the right, then
one sweep to the left. -/
def sort_lawnmower_outer : Nat → Nat → disk_state × Nat → Option (disk_state × Nat)
  | 0, _, _ => none
  | fuel + 1, i, st =>
    if i < st.1.light_count then
      match sort_lawnmower_right (size_sub_one st.1.total_count + 1) 0 st with
      | none => none
      | some st1 =>
        match sort_lawnmower_left (size_sub_one st1.1.total_count + 1)
            (size_sub_one st1.1.total_count) st1 with
        | none => none
        | some st2 => sort_lawnmower_outer fuel (i + 1) st2
    else some st

/-- The function `sort_lawnmower`. -/
def sort_lawnmower (before : disk_state) : Option sorted_disks :=
  match sort_lawnmower_outer (before.light_count + 1) 0 (before, 0) with
  | none => none
  | some st => some ⟨st.1, st.2⟩

/-! ## The passes and the rows they meet, as list functions -/

/-- One pass of `sort_alternate` over disjoint neighbouring pairs, read off the
list from its first pair on: every pair dark-light is put in order and
counted. -/
def pair_pass : List disk_color → List disk_color × Nat
  | [] => ([], 0)
  | [x] => ([x], 0)
  | x :: y :: rest =>
    if x = DISK_DARK ∧ y = DISK_LIGHT then
      (DISK_LIGHT :: DISK_DARK :: (pair_pass rest).1, (pair_pass rest).2 + 1)
    else (x :: y :: (pair_pass rest).1, (pair_pass rest).2)

/-- The left-to-right sweep of `sort_lawnmower` on `x :: rest`: the disk in
hand is `x`, the cells still ahead are `rest`. -/
def sweep_right : disk_color → List disk_color → List disk_color × Nat
  | x, [] => ([x], 0)
  | x, y :: rest =>
    if x = DISK_DARK ∧ y = DISK_LIGHT then
      (DISK_LIGHT :: (sweep_right DISK_DARK rest).1, (sweep_right DISK_DARK rest).2 + 1)
    else (x :: (sweep_right y rest).1, (sweep_right y rest).2)

/-- The right-to-left sweep of `sort_lawnmower`, on the mirrored row: the disk
in hand is `x`, the cells still ahead (to its left) are listed nearest
first, and the result is listed the same way. -/
def sweep_left : disk_color → List disk_color → List disk_color × Nat
  | x, [] => ([x], 0)
  | x, y :: rest =>
    if x = DISK_LIGHT ∧ y = DISK_DARK then
      (DISK_DARK :: (sweep_left DISK_LIGHT rest).1, (sweep_left DISK_LIGHT rest).2 + 1)
    else (x :: (sweep_left y rest).1, (sweep_left y rest).2)

/-- The odd pass of `sort_alternate`: the first disk is skipped, the pairs
start at index 1. -/
def odd_pass : List disk_color → List disk_color × Nat
  | [] => ([], 0)
  | x :: rest => (x :: (pair_pass rest).1, (pair_pass rest).2)

/-- Pass number `i` of `sort_alternate`, applied to a row and a tally. -/
def alternate_pass (i : Nat) (st : List disk_color × Nat) : List disk_color × Nat :=
  if i % 2 = 0 then ((pair_pass st.1).1, st.2 + (pair_pass st.1).2)
  else ((odd_pass st.1).1, st.2 + (odd_pass st.1).2)

/-- The passes `i`, `i + 1`, ..., `i + k - 1` of `sort_alternate`, one after the other. -/
def alternate_passes : Nat → Nat → List disk_color × Nat → List disk_color × Nat
  | 0, _, st => st
  | k + 1, i, st => alternate_passes k (i + 1) (alternate_pass i st)

/-- A whole left-to-right sweep of `sort_lawnmower`. -/
def right_pass : List disk_color → List disk_color × Nat
  | [] => ([], 0)
  | x :: rest => sweep_right x rest

/-- A whole right-to-left sweep of `sort_lawnmower`. -/
def left_pass (l : List disk_color) : List disk_color × Nat :=
  match l.reverse with
  | [] => ([], 0)
  | x :: rest => ((sweep_left x rest).1.reverse, (sweep_left x rest).2)

/-- One pass of `sort_lawnmower`: a sweep to the right, then a sweep to the left. -/
def lawnmower_pass (st : List disk_color × Nat) : List disk_color × Nat :=
  ((left_pass (right_pass st.1).1).1,
    st.2 + (right_pass st.1).2 + (left_pass (right_pass st.1).1).2)

/-- The first `k` passes of `sort_lawnmower`. -/
def lawnmower_passes : Nat → List disk_color × Nat → List disk_color × Nat
  | 0, st => st
  | k + 1, st => lawnmower_passes k (lawnmower_pass st)

/-- The row light, dark, light, dark, ... with `m` disks of each colour. -/
def alternating : Nat → List disk_color
  | 0 => []
  | m + 1 => DISK_LIGHT :: DISK_DARK :: alternating m

/-- The row dark, light, dark, light, ... with `m` disks of each colour. -/
def alternating_dark_first : Nat → List disk_color
  | 0 => []
  | m + 1 => DISK_DARK :: DISK_LIGHT :: alternating_dark_first m

/-- The row of `a` light disks followed by `b` dark disks. -/
def separated (a b : Nat) : List disk_color :=
  List.replicate a DISK_LIGHT ++ List.replicate b DISK_DARK

/-- The rows met on the way from the alternating row to the separated row:
`k` light disks, an alternating stretch of `m` pairs, `k` dark disks. -/
def stage (k m : Nat) : List disk_color :=
  List.replicate k DISK_LIGHT ++ (alternating m ++ List.replicate k DISK_DARK)

/-- Two neighbours are in order unless the left one is dark and the right one light. -/
def in_order (x y : disk_color) : Prop := ¬ (x = DISK_DARK ∧ y = DISK_LIGHT)

/-- What makes one round of the loop of `is_sorted()` answer `false` at index
`j`: a dark disk at `j` in the lower half, or a dark disk at index 0. -/
def is_sorted_rejects (l : List disk_color) (j : Nat) : Prop :=
  (l[j]? = some DISK_DARK ∧ j < l.length / 2) ∨ l[0]? = some DISK_DARK

instance (l : List disk_color) (j : Nat) : Decidable (is_sorted_rejects l j) := by
  unfold is_sorted_rejects; infer_instance

/-- The rows reached from the row built by `disk_state(n)` by calls of `swap`
that pass both asserts. -/
inductive reachable (n : Nat) : disk_state → Prop
  | built (d : disk_state) : disk_state.ctor n = some d → reachable n d
  | swapped (d d1 : disk_state) (i : Nat) : reachable n d → d.swap i = some d1 → reachable n d1

/-- What makes one round of the loop of `is_initialized()` answer `false` at
index `i`: a dark disk at an even index, or a light disk at an odd index. -/
def is_initialized_rejects (l : List disk_color) (i : Nat) : Prop :=
  (i % 2 = 0 ∧ l[i]? = some DISK_DARK) ∨ (¬ i % 2 = 0 ∧ l[i]? = some DISK_LIGHT)

instance (l : List disk_color) (i : Nat) : Decidable (is_initialized_rejects l i) := by
  unfold is_initialized_rejects; infer_instance

/-- The token written for one disk: `L` for a light disk, `D` for a dark one. -/
def disk_token (c : disk_color) : List Char :=
  if c = DISK_LIGHT then ['L'] else ['D']

/-- The colour named by a token, if any: `L` names light and `D` names dark. -/
def token_color (t : List Char) : Option disk_color :=
  if t = ['L'] then some DISK_LIGHT else if t = ['D'] then some DISK_DARK else none

/-- The tokens of a text: the text is split at every space and the empty
pieces are dropped. -/
def text_tokens (text : List Char) : List (List Char) :=
  (text.splitOn ' ').filter (fun t => decide (t ≠ []))

/-- A whole right-to-left sweep on the mirrored row (listed from right to left). -/
def mirror_pass : List disk_color → List disk_color × Nat
  | [] => ([], 0)
  | x :: rest => sweep_left x rest

/-- A row with `p` light disks at the left end, `q` dark disks at the right
end, and the stretch `m` between them. -/
def framed (p : Nat) (m : List disk_color) (q : Nat) : List disk_color :=
  List.replicate p DISK_LIGHT ++ (m ++ List.replicate q DISK_DARK)

/-! ## Reading and swapping at a split point -/

theorem size_sub_one_of_pos {n : Nat} (h : 0 < n) : size_sub_one n = n - 1 := by
  unfold size_sub_one
  rw [if_neg (by omega)]

theorem getElem?_at_split (pre suf : List disk_color) (x : disk_color) :
    (pre ++ x :: suf)[pre.length]? = some x := by
  induction pre with
  | nil => simp
  | cons a pre ih => simpa using ih

theorem get_at_split (pre suf : List disk_color) (x : disk_color) :
    (disk_state.mk (pre ++ x :: suf)).get pre.length = some x := by
  unfold disk_state.get disk_state.is_index disk_state.total_count
  rw [if_pos (by simp)]
  exact getElem?_at_split _ _ _

theorem get_succ_at_split (pre suf : List disk_color) (x y : disk_color) :
    (disk_state.mk (pre ++ x :: y :: suf)).get (pre.length + 1) = some y := by
  have h := get_at_split (pre ++ [x]) suf y
  simpa using h

theorem swap_at_split (pre suf : List disk_color) (x y : disk_color) :
    (disk_state.mk (pre ++ x :: y :: suf)).swap pre.length
      = some ⟨pre ++ y :: x :: suf⟩ := by
  have h1 : (pre ++ x :: y :: suf)[pre.length]? = some x := getElem?_at_split _ _ _
  have h2 : (pre ++ x :: y :: suf)[pre.length + 1]? = some y := by
    have h := getElem?_at_split (pre ++ [x]) suf y
    simpa using h
  simp only [disk_state.swap, disk_state.is_index, disk_state.total_count, h1, h2]
  simp [List.set_append]

theorem swap_if_dark_light_at_split (pre suf : List disk_color) (x y : disk_color) (c : Nat) :
    swap_if_dark_light (⟨pre ++ x :: y :: suf⟩, c) pre.length
      = some (if x = DISK_DARK ∧ y = DISK_LIGHT
          then (⟨pre ++ DISK_LIGHT :: DISK_DARK :: suf⟩, c + 1)
          else (⟨pre ++ x :: y :: suf⟩, c)) := by
  simp only [swap_if_dark_light, get_at_split, get_succ_at_split, swap_at_split]
  cases x <;> cases y <;> simp

theorem swap_if_light_dark_at_split (pre suf : List disk_color) (x y : disk_color) (c : Nat) :
    swap_if_light_dark (⟨pre ++ x :: y :: suf⟩, c) (pre.length + 1)
      = some (if x = DISK_DARK ∧ y = DISK_LIGHT
          then (⟨pre ++ DISK_LIGHT :: DISK_DARK :: suf⟩, c + 1)
          else (⟨pre ++ x :: y :: suf⟩, c)) := by
  simp only [swap_if_light_dark, Nat.add_sub_cancel, get_at_split, get_succ_at_split,
    swap_at_split]
  cases x <;> cases y <;> simp

/-! ## The loops as list functions -/

theorem sort_alternate_inner_at_split (fuel : Nat) :
    ∀ (pre suf : List disk_color) (c : Nat), suf.length < 2 * fuel →
      0 < (pre ++ suf).length →
      sort_alternate_inner fuel pre.length (⟨pre ++ suf⟩, c)
        = some (⟨pre ++ (pair_pass suf).1⟩, c + (pair_pass suf).2) := by
  induction fuel with
  | zero => intro pre suf c h; omega
  | succ fuel ih =>
    intro pre suf c hf hpos
    unfold sort_alternate_inner
    have hs : size_sub_one (pre ++ suf).length = (pre ++ suf).length - 1 :=
      size_sub_one_of_pos hpos
    simp only [disk_state.total_count, hs]
    match suf, hf, hpos with
    | [], _, _ => simp [pair_pass]
    | [x], _, _ => simp [pair_pass]
    | x :: y :: rest, hf, _ =>
      rw [if_pos (by simp), swap_if_dark_light_at_split]
      simp only [List.length_cons] at hf
      by_cases hxy : x = DISK_DARK ∧ y = DISK_LIGHT
      · have h := ih (pre ++ [DISK_LIGHT, DISK_DARK]) rest (c + 1) (by omega) (by simp)
        simp only [List.length_append, List.length_cons, List.length_nil,
          List.append_assoc, List.cons_append, List.nil_append] at h
        simp only [if_pos hxy, pair_pass]
        rw [h]; simp; omega
      · have h := ih (pre ++ [x, y]) rest c (by omega) (by simp)
        simp only [List.length_append, List.length_cons, List.length_nil,
          List.append_assoc, List.cons_append, List.nil_append] at h
        simp only [if_neg hxy, pair_pass]
        rw [h]

theorem sort_lawnmower_right_at_split (fuel : Nat) :
    ∀ (pre suf : List disk_color) (x : disk_color) (c : Nat), suf.length < fuel →
      sort_lawnmower_right fuel pre.length (⟨pre ++ x :: suf⟩, c)
        = some (⟨pre ++ (sweep_right x suf).1⟩, c + (sweep_right x suf).2) := by
  induction fuel with
  | zero => intro pre suf x c h; omega
  | succ fuel ih =>
    intro pre suf x c hf
    unfold sort_lawnmower_right
    have hs : size_sub_one (pre ++ x :: suf).length = (pre ++ x :: suf).length - 1 :=
      size_sub_one_of_pos (by simp)
    simp only [disk_state.total_count, hs]
    match suf, hf with
    | [], _ => simp [sweep_right]
    | y :: rest, hf =>
      rw [if_pos (by simp), swap_if_dark_light_at_split]
      simp only [List.length_cons] at hf
      by_cases hxy : x = DISK_DARK ∧ y = DISK_LIGHT
      · have h := ih (pre ++ [DISK_LIGHT]) rest DISK_DARK (c + 1) (by omega)
        simp only [List.length_append, List.length_cons, List.length_nil,
          List.append_assoc, List.cons_append, List.nil_append] at h
        simp only [if_pos hxy, sweep_right]
        rw [h]; simp; omega
      · have h := ih (pre ++ [x]) rest y c (by omega)
        simp only [List.length_append, List.length_cons, List.length_nil,
          List.append_assoc, List.cons_append, List.nil_append] at h
        simp only [if_neg hxy, sweep_right]
        rw [h]

theorem sort_lawnmower_left_at_split (fuel : Nat) :
    ∀ (rpre suf : List disk_color) (x : disk_color) (c : Nat), rpre.length < fuel →
      sort_lawnmower_left fuel rpre.length (⟨rpre.reverse ++ x :: suf⟩, c)
        = some (⟨(sweep_left x rpre).1.reverse ++ suf⟩, c + (sweep_left x rpre).2) := by
  induction fuel with
  | zero => intro rpre suf x c h; omega
  | succ fuel ih =>
    intro rpre suf x c hf
    unfold sort_lawnmower_left
    match rpre, hf with
    | [], _ => simp [sweep_left]
    | y :: rest, hf =>
      simp only [List.length_cons] at hf
      have hk : (y :: rest).length = rest.reverse.length + 1 := by simp
      rw [if_pos (by simp)]
      have hl : (y :: rest).reverse ++ x :: suf = rest.reverse ++ y :: x :: suf := by simp
      rw [hl, hk, swap_if_light_dark_at_split, Nat.add_sub_cancel, List.length_reverse]
      by_cases hxy : y = DISK_DARK ∧ x = DISK_LIGHT
      · have h := ih rest (DISK_DARK :: suf) DISK_LIGHT (c + 1) (by omega)
        have hxy2 : x = DISK_LIGHT ∧ y = DISK_DARK := ⟨hxy.2, hxy.1⟩
        simp only [if_pos hxy, if_pos hxy2, sweep_left]
        rw [h]; simp; omega
      · have h := ih rest (x :: suf) y c (by omega)
        have hxy2 : ¬ (x = DISK_LIGHT ∧ y = DISK_DARK) := fun hh => hxy ⟨hh.2, hh.1⟩
        simp only [if_neg hxy, if_neg hxy2, sweep_left]
        rw [h]; simp

/-! ## Passes permute the row -/

theorem pair_pass_perm : ∀ l : List disk_color, (pair_pass l).1.Perm l
  | [] => by simp [pair_pass]
  | [x] => by simp [pair_pass]
  | x :: y :: rest => by
    have ih := pair_pass_perm rest
    unfold pair_pass
    by_cases h : x = DISK_DARK ∧ y = DISK_LIGHT
    · rw [if_pos h, h.1, h.2]
      exact (List.Perm.swap _ _ _).trans ((ih.cons _).cons _)
    · rw [if_neg h]
      exact (ih.cons _).cons _

theorem odd_pass_perm (l : List disk_color) : (odd_pass l).1.Perm l := by
  cases l with
  | nil => simp [odd_pass]
  | cons x rest => exact (pair_pass_perm rest).cons x

theorem sweep_right_perm : ∀ (l : List disk_color) (x : disk_color),
    (sweep_right x l).1.Perm (x :: l)
  | [], x => by simp [sweep_right]
  | y :: rest, x => by
    unfold sweep_right
    by_cases h : x = DISK_DARK ∧ y = DISK_LIGHT
    · rw [if_pos h, h.1, h.2]
      exact ((sweep_right_perm rest DISK_DARK).cons _).trans (List.Perm.swap _ _ _)
    · rw [if_neg h]
      exact (sweep_right_perm rest y).cons _

theorem sweep_left_perm : ∀ (l : List disk_color) (x : disk_color),
    (sweep_left x l).1.Perm (x :: l)
  | [], x => by simp [sweep_left]
  | y :: rest, x => by
    unfold sweep_left
    by_cases h : x = DISK_LIGHT ∧ y = DISK_DARK
    · rw [if_pos h, h.1, h.2]
      exact ((sweep_left_perm rest DISK_LIGHT).cons _).trans (List.Perm.swap _ _ _)
    · rw [if_neg h]
      exact (sweep_left_perm rest y).cons _

theorem right_pass_perm (l : List disk_color) : (right_pass l).1.Perm l := by
  cases l with
  | nil => simp [right_pass]
  | cons x rest => exact sweep_right_perm rest x

theorem left_pass_perm (l : List disk_color) : (left_pass l).1.Perm l := by
  unfold left_pass
  cases h : l.reverse with
  | nil => simp at h; simp [h]
  | cons x rest =>
    have h1 : (sweep_left x rest).1.reverse.Perm (x :: rest) :=
      (List.reverse_perm _).trans (sweep_left_perm rest x)
    have h2 : (x :: rest).Perm l := by
      rw [← h]; exact List.reverse_perm l
    exact h1.trans h2

theorem alternate_pass_perm (i : Nat) (st : List disk_color × Nat) :
    (alternate_pass i st).1.Perm st.1 := by
  unfold alternate_pass
  split
  · exact pair_pass_perm _
  · exact odd_pass_perm _

theorem lawnmower_pass_perm (st : List disk_color × Nat) :
    (lawnmower_pass st).1.Perm st.1 :=
  (left_pass_perm _).trans (right_pass_perm _)

theorem lawnmower_passes_perm : ∀ (k : Nat) (st : List disk_color × Nat),
    (lawnmower_passes k st).1.Perm st.1
  | 0, _ => List.Perm.refl _
  | k + 1, st => (lawnmower_passes_perm k (lawnmower_pass st)).trans (lawnmower_pass_perm st)

/-! ## The procedures as iterated passes -/

theorem sort_alternate_even_pass (l : List disk_color) (c : Nat) (h : 0 < l.length) :
    sort_alternate_inner (size_sub_one l.length + 1) 0 (⟨l⟩, c)
      = some (⟨(pair_pass l).1⟩, c + (pair_pass l).2) := by
  have := sort_alternate_inner_at_split (size_sub_one l.length + 1) [] l c
    (by rw [size_sub_one_of_pos h]; omega) (by simpa using h)
  simpa using this

theorem sort_alternate_odd_pass (l : List disk_color) (c : Nat) (h : 0 < l.length) :
    sort_alternate_inner (size_sub_one l.length + 1) 1 (⟨l⟩, c)
      = some (⟨(odd_pass l).1⟩, c + (odd_pass l).2) := by
  cases l with
  | nil => simp at h
  | cons x rest =>
    have := sort_alternate_inner_at_split (size_sub_one (x :: rest).length + 1) [x] rest c
      (by rw [size_sub_one_of_pos h]; simp; omega) (by simp)
    simpa [odd_pass] using this

theorem sort_alternate_outer_eq (fuel : Nat) :
    ∀ (i : Nat) (st : List disk_color × Nat), 0 < st.1.length →
      st.1.length - 1 - i < fuel →
      sort_alternate_outer fuel i (⟨st.1⟩, st.2)
        = some (⟨(alternate_passes (st.1.length - 1 - i) i st).1⟩,
            (alternate_passes (st.1.length - 1 - i) i st).2) := by
  induction fuel with
  | zero => intro i st _ h; omega
  | succ fuel ih =>
    intro i st hpos hf
    unfold sort_alternate_outer
    simp only [disk_state.total_count, size_sub_one_of_pos hpos]
    by_cases hi : i < st.1.length - 1
    · have hlen : (alternate_pass i st).1.length = st.1.length :=
        (alternate_pass_perm i st).length_eq
      have hk : st.1.length - 1 - i = (st.1.length - 1 - (i + 1)) + 1 := by omega
      have h := ih (i + 1) (alternate_pass i st) (by omega) (by omega)
      rw [hlen] at h
      rw [if_pos hi, hk, alternate_passes]
      by_cases hp : i % 2 = 0
      · have he := sort_alternate_even_pass st.1 st.2 hpos
        rw [size_sub_one_of_pos hpos] at he
        rw [if_pos hp, he]
        simp only
        have hq : alternate_pass i st = ((pair_pass st.1).1, st.2 + (pair_pass st.1).2) := by
          simp [alternate_pass, hp]
        rw [hq] at h ⊢
        exact h
      · have hp1 : i % 2 = 1 := by omega
        have he := sort_alternate_odd_pass st.1 st.2 hpos
        rw [size_sub_one_of_pos hpos] at he
        rw [if_neg hp, if_pos hp1, he]
        simp only
        have hq : alternate_pass i st = ((odd_pass st.1).1, st.2 + (odd_pass st.1).2) := by
          simp [alternate_pass, hp]
        rw [hq] at h ⊢
        exact h
    · rw [if_neg hi]
      have hk : st.1.length - 1 - i = 0 := by omega
      rw [hk]; simp [alternate_passes]

/-- The procedure `sort_alternate` on a non-empty row: `total_count() - 1`
passes, numbered from 0, starting from tally 0. -/
theorem sort_alternate_eq (l : List disk_color) (h : 0 < l.length) :
    sort_alternate ⟨l⟩
      = some ⟨⟨(alternate_passes (l.length - 1) 0 (l, 0)).1⟩,
          (alternate_passes (l.length - 1) 0 (l, 0)).2⟩ := by
  unfold sort_alternate
  have := sort_alternate_outer_eq (size_sub_one l.length + 1) 0 (l, 0) h
    (by rw [size_sub_one_of_pos h]; simp)
  simp only [disk_state.total_count]
  rw [this]; simp

theorem sort_lawnmower_right_pass (l : List disk_color) (c : Nat) (h : 0 < l.length) :
    sort_lawnmower_right (size_sub_one l.length + 1) 0 (⟨l⟩, c)
      = some (⟨(right_pass l).1⟩, c + (right_pass l).2) := by
  cases l with
  | nil => simp at h
  | cons x rest =>
    have := sort_lawnmower_right_at_split (size_sub_one (x :: rest).length + 1) [] rest x c
      (by rw [size_sub_one_of_pos h]; simp)
    simpa [right_pass] using this

theorem sort_lawnmower_left_pass (l : List disk_color) (c : Nat) (h : 0 < l.length) :
    sort_lawnmower_left (size_sub_one l.length + 1) (size_sub_one l.length) (⟨l⟩, c)
      = some (⟨(left_pass l).1⟩, c + (left_pass l).2) := by
  unfold left_pass
  cases hr : l.reverse with
  | nil => simp at hr; simp [hr] at h
  | cons x rest =>
    have hl : l = rest.reverse ++ [x] := by
      have := congrArg List.reverse hr
      simpa using this
    have hlen : l.length = rest.length + 1 := by simp [hl]
    have := sort_lawnmower_left_at_split (size_sub_one l.length + 1) rest [] x c
      (by rw [size_sub_one_of_pos h]; omega)
    rw [size_sub_one_of_pos h, hlen, Nat.add_sub_cancel] at this ⊢
    rw [hl]
    simpa using this

theorem sort_lawnmower_outer_eq (fuel : Nat) :
    ∀ (i : Nat) (st : List disk_color × Nat),
      st.1.length / 2 - i < fuel →
      sort_lawnmower_outer fuel i (⟨st.1⟩, st.2)
        = some (⟨(lawnmower_passes (st.1.length / 2 - i) st).1⟩,
            (lawnmower_passes (st.1.length / 2 - i) st).2) := by
  induction fuel with
  | zero => intro i st h; omega
  | succ fuel ih =>
    intro i st hf
    unfold sort_lawnmower_outer
    simp only [disk_state.light_count, disk_state.total_count]
    by_cases hi : i < st.1.length / 2
    · have hpos : 0 < st.1.length := by omega
      have hlen1 : (right_pass st.1).1.length = st.1.length := (right_pass_perm _).length_eq
      have hlen : (lawnmower_pass st).1.length = st.1.length :=
        (lawnmower_pass_perm st).length_eq
      have hk : st.1.length / 2 - i = (st.1.length / 2 - (i + 1)) + 1 := by omega
      have h := ih (i + 1) (lawnmower_pass st) (by rw [hlen]; omega)
      rw [hlen] at h
      rw [if_pos hi, hk, lawnmower_passes, sort_lawnmower_right_pass _ _ hpos]
      simp only
      rw [sort_lawnmower_left_pass _ _ (by rw [hlen1]; exact hpos)]
      simp only
      exact h
    · rw [if_neg hi]
      have hk : st.1.length / 2 - i = 0 := by omega
      rw [hk]; simp [lawnmower_passes]

/-- The procedure `sort_lawnmower` on any row: `light_count()` passes from
tally 0. -/
theorem sort_lawnmower_eq (l : List disk_color) :
    sort_lawnmower ⟨l⟩
      = some ⟨⟨(lawnmower_passes (l.length / 2) (l, 0)).1⟩,
          (lawnmower_passes (l.length / 2) (l, 0)).2⟩ := by
  unfold sort_lawnmower
  have := sort_lawnmower_outer_eq (l.length / 2 + 1) 0 (l, 0) (by simp)
  simp only [disk_state.light_count, disk_state.total_count]
  rw [this]; simp

/-! ## The constructor -/

theorem ctor_loop_at_split (fuel : Nat) :
    ∀ (pre : List disk_color) (m : Nat), m < fuel →
      ctor_loop fuel (pre.length + 1) (pre ++ List.replicate (m * 2) DISK_LIGHT)
        = some (pre ++ alternating m) := by
  induction fuel with
  | zero => intro pre m h; omega
  | succ fuel ih =>
    intro pre m hf
    unfold ctor_loop
    cases m with
    | zero => simp [alternating]
    | succ m =>
      have hr : List.replicate ((m + 1) * 2) DISK_LIGHT
          = DISK_LIGHT :: DISK_LIGHT :: List.replicate (m * 2) DISK_LIGHT := by
        rw [Nat.succ_mul]; rfl
      have hset : (pre ++ DISK_LIGHT :: DISK_LIGHT :: List.replicate (m * 2) DISK_LIGHT).set
          (pre.length + 1) DISK_DARK
            = (pre ++ [DISK_LIGHT, DISK_DARK]) ++ List.replicate (m * 2) DISK_LIGHT := by
        simp [List.set_append]
      have h := ih (pre ++ [DISK_LIGHT, DISK_DARK]) m (by omega)
      rw [hr, if_pos (by simp), hset]
      simp only [List.length_append, List.length_cons, List.length_nil] at h
      rw [h]
      simp [alternating]

/-- The constructor builds the alternating row. -/
theorem ctor_eq (n : Nat) (h : 0 < n) : disk_state.ctor n = some ⟨alternating n⟩ := by
  unfold disk_state.ctor
  have := ctor_loop_at_split ((List.replicate (n * 2) DISK_LIGHT).length + 1) [] n
    (by simp; omega)
  simp only [List.length_nil, List.nil_append, Nat.zero_add] at this
  simp only [if_pos h, this, Option.map_some']

theorem alternating_length (m : Nat) : (alternating m).length = 2 * m := by
  induction m with
  | zero => rfl
  | succ m ih => simp [alternating, ih]; omega

/-! ## Rows that are already in order -/

theorem pair_pass_in_order : ∀ l : List disk_color, l.Chain' in_order → pair_pass l = (l, 0)
  | [], _ => rfl
  | [_], _ => rfl
  | x :: y :: rest, h => by
    have hxy : ¬ (x = DISK_DARK ∧ y = DISK_LIGHT) := (List.chain'_cons.mp h).1
    have ih := pair_pass_in_order rest (List.chain'_cons.mp h).2.tail
    simp [pair_pass, hxy, ih]

theorem sweep_right_in_order : ∀ (l : List disk_color) (x : disk_color),
    (x :: l).Chain' in_order → sweep_right x l = (x :: l, 0)
  | [], _, _ => rfl
  | y :: rest, x, h => by
    have hxy : ¬ (x = DISK_DARK ∧ y = DISK_LIGHT) := (List.chain'_cons.mp h).1
    have ih := sweep_right_in_order rest y (List.chain'_cons.mp h).2
    simp [sweep_right, hxy, ih]

theorem sweep_left_in_order : ∀ (l : List disk_color) (x : disk_color),
    (x :: l).Chain' (flip in_order) → sweep_left x l = (x :: l, 0)
  | [], _, _ => rfl
  | y :: rest, x, h => by
    have hxy : ¬ (x = DISK_LIGHT ∧ y = DISK_DARK) := fun hh =>
      (List.chain'_cons.mp h).1 ⟨hh.2, hh.1⟩
    have ih := sweep_left_in_order rest y (List.chain'_cons.mp h).2
    simp [sweep_left, hxy, ih]

theorem odd_pass_in_order (l : List disk_color) (h : l.Chain' in_order) :
    odd_pass l = (l, 0) := by
  cases l with
  | nil => rfl
  | cons x rest => simp [odd_pass, pair_pass_in_order rest h.tail]

theorem right_pass_in_order (l : List disk_color) (h : l.Chain' in_order) :
    right_pass l = (l, 0) := by
  cases l with
  | nil => rfl
  | cons x rest => exact sweep_right_in_order rest x h

theorem left_pass_in_order (l : List disk_color) (h : l.Chain' in_order) :
    left_pass l = (l, 0) := by
  unfold left_pass
  have hr : l.reverse.Chain' (flip in_order) := List.chain'_reverse.mpr h
  cases hl : l.reverse with
  | nil => simp at hl; simp [hl]
  | cons x rest =>
    rw [hl] at hr
    have := sweep_left_in_order rest x hr
    simp only [this, Prod.mk.injEq, and_true]
    rw [← hl, List.reverse_reverse]

theorem alternate_pass_in_order (i : Nat) (l : List disk_color) (c : Nat)
    (h : l.Chain' in_order) : alternate_pass i (l, c) = (l, c) := by
  unfold alternate_pass
  split <;> simp [pair_pass_in_order l h, odd_pass_in_order l h]

theorem alternate_passes_in_order (l : List disk_color) (h : l.Chain' in_order) :
    ∀ (k i c : Nat), alternate_passes k i (l, c) = (l, c)
  | 0, _, _ => rfl
  | k + 1, i, c => by
    rw [alternate_passes, alternate_pass_in_order i l c h]
    exact alternate_passes_in_order l h k (i + 1) c

theorem lawnmower_pass_in_order (l : List disk_color) (c : Nat)
    (h : l.Chain' in_order) : lawnmower_pass (l, c) = (l, c) := by
  simp [lawnmower_pass, right_pass_in_order l h, left_pass_in_order l h]

theorem lawnmower_passes_in_order (l : List disk_color) (h : l.Chain' in_order) :
    ∀ (k c : Nat), lawnmower_passes k (l, c) = (l, c)
  | 0, _ => rfl
  | k + 1, c => by
    rw [lawnmower_passes, lawnmower_pass_in_order l c h]
    exact lawnmower_passes_in_order l h k c

theorem separated_in_order (a b : Nat) : (separated a b).Chain' in_order := by
  apply List.Pairwise.chain'
  unfold separated
  rw [List.pairwise_append]
  refine ⟨?_, ?_, ?_⟩
  · rw [List.pairwise_replicate]
    right; intro h; cases h.1
  · rw [List.pairwise_replicate]
    right; intro h; cases h.2
  · intro x hx y _ h
    rw [List.eq_of_mem_replicate hx] at h
    cases h.1

/-! ## The stages between the alternating and the separated row -/

theorem alternating_succ (m : Nat) :
    alternating (m + 1) = DISK_LIGHT :: (alternating_dark_first m ++ [DISK_DARK]) := by
  induction m with
  | zero => rfl
  | succ m ih =>
    rw [alternating, ih]
    simp [alternating_dark_first]

theorem alternating_dark_first_succ (m : Nat) :
    alternating_dark_first (m + 1) = alternating_dark_first m ++ [DISK_DARK, DISK_LIGHT] := by
  induction m with
  | zero => rfl
  | succ m ih =>
    calc alternating_dark_first (m + 1 + 1)
        = DISK_DARK :: DISK_LIGHT :: alternating_dark_first (m + 1) := rfl
      _ = DISK_DARK :: DISK_LIGHT :: (alternating_dark_first m ++ [DISK_DARK, DISK_LIGHT]) := by
          rw [ih]
      _ = alternating_dark_first (m + 1) ++ [DISK_DARK, DISK_LIGHT] := rfl

theorem alternating_reverse (m : Nat) :
    (alternating m).reverse = alternating_dark_first m := by
  induction m with
  | zero => rfl
  | succ m ih =>
    rw [alternating_dark_first_succ, ← ih]
    simp [alternating]

theorem replicate_append_cons (k : Nat) (a : disk_color) (r : List disk_color) :
    List.replicate k a ++ a :: r = a :: (List.replicate k a ++ r) := by
  induction k with
  | zero => rfl
  | succ k ih => simp [List.replicate_succ, ih]

theorem stage_succ_pairs (k m : Nat) :
    stage k (m + 1) = List.replicate (k + 1) DISK_LIGHT
      ++ (alternating_dark_first m ++ List.replicate (k + 1) DISK_DARK) := by
  unfold stage
  rw [alternating_succ, List.cons_append, replicate_append_cons]
  simp [List.replicate_succ]

theorem stage_perm (k m : Nat) : (stage k m).Perm (alternating (k + m)) := by
  induction k generalizing m with
  | zero => simp [stage]
  | succ k ih =>
    have h := ih (m + 1)
    rw [stage_succ_pairs] at h
    have e : k + 1 + m = k + (m + 1) := by omega
    rw [e]
    refine List.Perm.trans ?_ h
    unfold stage
    refine List.Perm.append_left _ ?_
    refine List.Perm.append_right _ ?_
    rw [← alternating_reverse]
    exact (List.reverse_perm _).symm

/-! ### A pass of `sort_alternate` on a stage -/

theorem get_eq_getElem? (l : List disk_color) (i : Nat) :
    (disk_state.mk l).get i = l[i]? := by
  unfold disk_state.get disk_state.is_index disk_state.total_count
  by_cases h : i < l.length
  · simp [h]
  · simp [h]; omega

theorem is_sorted_loop_step (l : List disk_color) (fuel i : Nat) (hi : i < l.length) :
    (disk_state.mk l).is_sorted_loop (fuel + 1) i
      = if is_sorted_rejects l i then some false
        else (disk_state.mk l).is_sorted_loop fuel (i + 1) := by
  rw [disk_state.is_sorted_loop]
  simp only [disk_state.total_count, if_pos hi, get_eq_getElem?]
  have hb : decide (i = DISK_LIGHT.toNat ∧ i > l.length / 2) = false := by
    simp only [disk_color.toNat, decide_eq_false_iff_not]
    omega
  obtain ⟨c, hc⟩ : ∃ c, l[i]? = some c := ⟨l[i], by simp [hi]⟩
  obtain ⟨c0, hc0⟩ : ∃ c, l[0]? = some c := ⟨l[0], by simp⟩
  simp only [hb, hc, hc0, is_sorted_rejects]
  cases c <;> cases c0 <;> by_cases hh : i < l.length / 2 <;> simp [hh, hc0, disk_color.toNat]

theorem is_sorted_loop_spec (l : List disk_color) (fuel : Nat) :
    ∀ i, l.length - i < fuel →
      ((disk_state.mk l).is_sorted_loop fuel i = some true
          ∧ ∀ j, i ≤ j → j < l.length → ¬ is_sorted_rejects l j)
        ∨ ((disk_state.mk l).is_sorted_loop fuel i = some false
          ∧ ∃ j, i ≤ j ∧ j < l.length ∧ is_sorted_rejects l j) := by
  induction fuel with
  | zero => intro i h; omega
  | succ fuel ih =>
    intro i hf
    by_cases hi : i < l.length
    · rw [is_sorted_loop_step l fuel i hi]
      by_cases hr : is_sorted_rejects l i
      · right
        exact ⟨by rw [if_pos hr], i, le_refl _, hi, hr⟩
      · rw [if_neg hr]
        rcases ih (i + 1) (by omega) with ⟨h1, h2⟩ | ⟨h1, j, hj1, hj2, hj3⟩
        · left
          refine ⟨h1, fun j hj1 hj2 => ?_⟩
          by_cases e : j = i
          · rw [e]; exact hr
          · exact h2 j (by omega) hj2
        · right
          exact ⟨h1, j, by omega, hj2, hj3⟩
    · left
      refine ⟨?_, fun j hj1 hj2 => by omega⟩
      rw [disk_state.is_sorted_loop]
      simp [disk_state.total_count, hi]

/-- The answer of `is_sorted()` on any row: it always returns, and it returns
`true` exactly when no round of its loop rejects. -/
theorem is_sorted_spec (l : List disk_color) :
    ((disk_state.mk l).is_sorted = some true
        ∧ ∀ j, j < l.length → ¬ is_sorted_rejects l j)
      ∨ ((disk_state.mk l).is_sorted = some false
        ∧ ∃ j, j < l.length ∧ is_sorted_rejects l j) := by
  unfold disk_state.is_sorted
  rcases is_sorted_loop_spec l ((disk_state.mk l).total_count + 1) 0
    (by simp [disk_state.total_count]) with ⟨h1, h2⟩ | ⟨h1, j, _, hj2, hj3⟩
  · exact Or.inl ⟨h1, fun j hj => h2 j (Nat.zero_le _) hj⟩
  · exact Or.inr ⟨h1, j, hj2, hj3⟩

/-- On a row of any length other than 1, `is_sorted()` returns `true` exactly
when the lower half holds no dark disk. -/
theorem is_sorted_true_iff (l : List disk_color) (h : l.length ≠ 1) :
    (disk_state.mk l).is_sorted = some true
      ↔ ∀ j, j < l.length / 2 → l[j]? = some DISK_LIGHT := by
  have key : (∀ j, j < l.length → ¬ is_sorted_rejects l j)
      ↔ ∀ j, j < l.length / 2 → l[j]? = some DISK_LIGHT := by
    constructor
    · intro hall j hj
      have hj2 : j < l.length := by omega
      have := hall j hj2
      unfold is_sorted_rejects at this
      obtain ⟨c, hc⟩ : ∃ c, l[j]? = some c := ⟨l[j], by simp [hj2]⟩
      cases c
      · exact hc
      · exact absurd (Or.inl ⟨hc, hj⟩) this
    · intro hall j hj hr
      rcases hr with ⟨h1, h2⟩ | h0
      · rw [hall j h2] at h1; cases Option.some.inj h1
      · have : 0 < l.length / 2 := by omega
        rw [hall 0 this] at h0; cases Option.some.inj h0
  rw [← key]
  rcases is_sorted_spec l with ⟨h1, h2⟩ | ⟨h1, j, hj, hr⟩
  · exact ⟨fun _ => h2, fun _ => h1⟩
  · constructor
    · intro ht; rw [h1] at ht; cases Option.some.inj ht
    · intro hall; exact absurd hr (hall j hj)

theorem is_sorted_false_iff (l : List disk_color) (h : l.length ≠ 1) :
    (disk_state.mk l).is_sorted = some false
      ↔ ¬ ∀ j, j < l.length / 2 → l[j]? = some DISK_LIGHT := by
  rw [← is_sorted_true_iff l h]
  rcases is_sorted_spec l with ⟨h1, _⟩ | ⟨h1, _⟩ <;> simp [h1]

theorem count_light_add_count_dark (l : List disk_color) :
    l.count DISK_LIGHT + l.count DISK_DARK = l.length := by
  induction l with
  | nil => rfl
  | cons x t ih =>
    cases x <;> simp [List.count_cons] <;> omega

theorem count_light_of_lower_run : ∀ (n : Nat) (l : List disk_color),
    (∀ j, j < n → l[j]? = some DISK_LIGHT) →
      l.count DISK_LIGHT = n + (l.drop n).count DISK_LIGHT
  | 0, l, _ => by simp
  | n + 1, [], h => by
    have := h 0 (by omega)
    simp at this
  | n + 1, x :: t, h => by
    have h0 := h 0 (by omega)
    simp only [List.getElem?_cons_zero, Option.some.injEq] at h0
    have ih := count_light_of_lower_run n t (fun j hj => by
      have := h (j + 1) (by omega)
      simpa using this)
    subst h0
    simp [List.count_cons, ih]
    omega

theorem count_light_le_of_bound : ∀ (l : List disk_color) (j : Nat),
    (∀ i, l[i]? = some DISK_LIGHT → i < j) → l.count DISK_LIGHT ≤ j
  | [], _, _ => by simp
  | x :: t, j, h => by
    have ih := count_light_le_of_bound t (j - 1) (fun i hi => by
      have := h (i + 1) (by simpa using hi)
      omega)
    cases x with
    | DISK_LIGHT =>
      have := h 0 (by simp)
      simp [List.count_cons]
      omega
    | DISK_DARK =>
      simp [List.count_cons]
      omega

/-- On a row with as many light as dark disks: a light lower half forces a
dark upper half. -/
theorem upper_half_dark_of_balanced (l : List disk_color)
    (hb : l.count DISK_LIGHT = l.count DISK_DARK)
    (hA : ∀ j, j < l.length / 2 → l[j]? = some DISK_LIGHT) :
    ∀ i, l.length / 2 ≤ i → i < l.length → l[i]? = some DISK_DARK := by
  intro i h1 h2
  have hlen := count_light_add_count_dark l
  have hc := count_light_of_lower_run (l.length / 2) l hA
  have hz : (l.drop (l.length / 2)).count DISK_LIGHT = 0 := by omega
  rw [List.count_eq_zero] at hz
  obtain ⟨c, hc⟩ : ∃ c, l[i]? = some c := ⟨l[i], by simp [h2]⟩
  cases c with
  | DISK_DARK => exact hc
  | DISK_LIGHT =>
    exfalso
    apply hz
    rw [List.mem_iff_getElem?]
    refine ⟨i - l.length / 2, ?_⟩
    rw [List.getElem?_drop]
    have : l.length / 2 + (i - l.length / 2) = i := by omega
    rw [this]; exact hc

/-- On a row with as many light as dark disks: if every light disk stands
before every dark disk, the lower half is light. -/
theorem lower_half_light_of_balanced (l : List disk_color)
    (hb : l.count DISK_LIGHT = l.count DISK_DARK)
    (hC : ∀ i j : Nat, l[i]? = some DISK_LIGHT → l[j]? = some DISK_DARK → i < j) :
    ∀ j, j < l.length / 2 → l[j]? = some DISK_LIGHT := by
  intro j hj
  have hlen := count_light_add_count_dark l
  have hj2 : j < l.length := by omega
  obtain ⟨c, hc⟩ : ∃ c, l[j]? = some c := ⟨l[j], by simp [hj2]⟩
  cases c with
  | DISK_LIGHT => exact hc
  | DISK_DARK =>
    exfalso
    have := count_light_le_of_bound l j (fun i hi => hC i j hi hc)
    omega

/-- C5: on every row with equally many light and dark disks, `is_sorted()`
returns, and it returns `true` if and only if the first `light_count()`
positions are all light and all remaining positions are all dark, which is the
case if and only if every light disk has an index strictly less than every
dark disk's index. -/
theorem is_sorted_iff_of_balanced (s : disk_state)
    (hb : s._colors.count DISK_LIGHT = s._colors.count DISK_DARK) :
    (s.is_sorted = some true ∨ s.is_sorted = some false)
      ∧ (s.is_sorted = some true ↔
          (∀ i, i < s.light_count → s.get i = some DISK_LIGHT)
            ∧ ∀ i, s.light_count ≤ i → i < s.total_count → s.get i = some DISK_DARK)
      ∧ (s.is_sorted = some true ↔
          ∀ i j, s.get i = some DISK_LIGHT → s.get j = some DISK_DARK → i < j) := by
  obtain ⟨l⟩ := s
  simp only at hb
  have hlen := count_light_add_count_dark l
  have hne : l.length ≠ 1 := by omega
  refine ⟨?_, ?_, ?_⟩
  · rcases is_sorted_spec l with ⟨h, _⟩ | ⟨h, _⟩
    · exact Or.inl h
    · exact Or.inr h
  all_goals simp only [get_eq_getElem?, disk_state.light_count, disk_state.total_count,
    is_sorted_true_iff l hne]
  · exact ⟨fun hA => ⟨hA, upper_half_dark_of_balanced l hb hA⟩, fun hB => hB.1⟩
  · constructor
    · intro hA i j hi hj
      have hB := upper_half_dark_of_balanced l hb hA
      have hi2 : i < l.length := by
        by_contra hc
        rw [List.getElem?_eq_none (by omega)] at hi
        cases hi
      have hj2 : j < l.length := by
        by_contra hc
        rw [List.getElem?_eq_none (by omega)] at hj
        cases hj
      by_contra hij
      by_cases hjn : j < l.length / 2
      · rw [hA j hjn] at hj; cases Option.some.inj hj
      · rw [hB i (by omega) hi2] at hi; cases Option.some.inj hi
    · exact lower_half_light_of_balanced l hb

/-- C5 on the row light, light, dark, dark. -/
theorem is_sorted_iff_of_balanced_witness :
    ((disk_state.mk [DISK_LIGHT, DISK_LIGHT, DISK_DARK, DISK_DARK])._colors.count DISK_LIGHT
        = (disk_state.mk [DISK_LIGHT, DISK_LIGHT, DISK_DARK, DISK_DARK])._colors.count DISK_DARK)
      ∧ (disk_state.mk [DISK_LIGHT, DISK_LIGHT, DISK_DARK, DISK_DARK]).is_sorted = some true
      ∧ ∀ i j, (disk_state.mk [DISK_LIGHT, DISK_LIGHT, DISK_DARK, DISK_DARK]).get i
            = some DISK_LIGHT →
          (disk_state.mk [DISK_LIGHT, DISK_LIGHT, DISK_DARK, DISK_DARK]).get j
            = some DISK_DARK → i < j :=
  ⟨by decide, by decide,
    (is_sorted_iff_of_balanced ⟨[DISK_LIGHT, DISK_LIGHT, DISK_DARK, DISK_DARK]⟩
      (by decide)).2.2.mp (by decide)⟩

/-- C6, at the rows built by `disk_state(1)` and `disk_state(2)`: `operator==`
answers `true` although the two rows differ in length. -/
theorem operator_eq_accepts_longer_row :
    ∃ a b, disk_state.ctor 1 = some a ∧ disk_state.ctor 2 = some b
      ∧ a.operator_eq b = some true ∧ a.total_count ≠ b.total_count :=
  ⟨⟨[DISK_LIGHT, DISK_DARK]⟩, ⟨[DISK_LIGHT, DISK_DARK, DISK_LIGHT, DISK_DARK]⟩,
    by decide, by decide, by decide, by decide⟩

/-! ## Swapping keeps the disks -/

theorem swap_eq_some (s s1 : disk_state) (i : Nat) (h : s.swap i = some s1) :
    ∃ a b, s._colors[i]? = some a ∧ s._colors[i + 1]? = some b
      ∧ s1._colors = (s._colors.set i b).set (i + 1) a := by
  unfold disk_state.swap at h
  split at h
  · simp only at h
    split at h
    · split at h
      · rename_i a b ha hb
        exact ⟨a, b, ha, hb, by cases h; rfl⟩
      · cases h
    · cases h
  · cases h

theorem swap_total_count (s s1 : disk_state) (i : Nat) (h : s.swap i = some s1) :
    s1.total_count = s.total_count := by
  obtain ⟨a, b, _, _, e⟩ := swap_eq_some s s1 i h
  simp [disk_state.total_count, e]

theorem reachable_total_count (n : Nat) (s : disk_state) (h : reachable n s) :
    s.total_count = 2 * n := by
  induction h with
  | built d hd =>
    have hn : 0 < n := by
      by_contra hc
      simp [disk_state.ctor, hc] at hd
    rw [ctor_eq n hn] at hd
    cases hd
    simp [disk_state.total_count, alternating_length]
  | swapped d d1 i _ hs ih => rw [swap_total_count d d1 i hs, ih]

/-! ## The predicate `is_initialized()` always answers -/

theorem is_initialized_loop_some (l : List disk_color) (fuel : Nat) :
    ∀ i, l.length - i < fuel → ∃ b, (disk_state.mk l).is_initialized_loop fuel i = some b := by
  induction fuel with
  | zero => intro i h; omega
  | succ fuel ih =>
    intro i hf
    rw [disk_state.is_initialized_loop]
    simp only [disk_state.total_count]
    by_cases hi : i < l.length
    · obtain ⟨c, hc⟩ : ∃ c, l[i]? = some c := ⟨l[i], by simp [hi]⟩
      obtain ⟨b, hb⟩ := ih (i + 1) (by omega)
      simp only [if_pos hi, hc, hb]
      cases c <;> by_cases hp : i % 2 = 0 <;> simp [hp]
    · exact ⟨true, by simp [hi]⟩

theorem is_initialized_some (s : disk_state) : ∃ b, s.is_initialized = some b := by
  obtain ⟨l⟩ := s
  exact is_initialized_loop_some l _ 0 (by simp [disk_state.total_count])

theorem is_sorted_some (s : disk_state) : ∃ b, s.is_sorted = some b := by
  obtain ⟨l⟩ := s
  rcases is_sorted_spec l with ⟨h, _⟩ | ⟨h, _⟩
  · exact ⟨true, h⟩
  · exact ⟨false, h⟩

theorem std_equal_self : ∀ l : List disk_color, std_equal l l = some true
  | [] => rfl
  | x :: t => by simp [std_equal, std_equal_self t]

/-- C8: for every `k ≥ 1`, on the row of `k` light disks followed by `k` dark
disks both `sort_alternate` and `sort_lawnmower` return a row equal to the
input and a swap count of 0. -/
theorem sort_separated_unchanged (k : Nat) (hk : 1 ≤ k) (s : disk_state)
    (hs : s._colors = List.replicate k DISK_LIGHT ++ List.replicate k DISK_DARK) :
    ∃ r1 r2, sort_alternate s = some r1 ∧ sort_lawnmower s = some r2
      ∧ r1.after = s ∧ r1.swap_count = 0 ∧ r1.after.operator_eq s = some true
      ∧ r2.after = s ∧ r2.swap_count = 0 ∧ r2.after.operator_eq s = some true := by
  obtain ⟨l⟩ := s
  simp only at hs
  have ho : l.Chain' in_order := by rw [hs]; exact separated_in_order k k
  have hlen : 0 < l.length := by rw [hs]; simp; omega
  refine ⟨⟨⟨l⟩, 0⟩, ⟨⟨l⟩, 0⟩, ?_, ?_, rfl, rfl, std_equal_self l, rfl, rfl, std_equal_self l⟩
  · rw [sort_alternate_eq l hlen, alternate_passes_in_order l ho]
  · rw [sort_lawnmower_eq l, lawnmower_passes_in_order l ho]

/-- C8 at `k = 2`, the row light, light, dark, dark. -/
theorem sort_separated_unchanged_witness :
    (1 ≤ 2)
      ∧ sort_alternate ⟨[DISK_LIGHT, DISK_LIGHT, DISK_DARK, DISK_DARK]⟩
          = some ⟨⟨[DISK_LIGHT, DISK_LIGHT, DISK_DARK, DISK_DARK]⟩, 0⟩
      ∧ sort_lawnmower ⟨[DISK_LIGHT, DISK_LIGHT, DISK_DARK, DISK_DARK]⟩
          = some ⟨⟨[DISK_LIGHT, DISK_LIGHT, DISK_DARK, DISK_DARK]⟩, 0⟩ := by
  obtain ⟨r1, r2, h1, h2, h3, h4, _, h5, h6, _⟩ :=
    sort_separated_unchanged 2 (by decide) ⟨[DISK_LIGHT, DISK_LIGHT, DISK_DARK, DISK_DARK]⟩ rfl
  refine ⟨by decide, ?_, ?_⟩
  · rw [h1]; cases r1; simp_all [sorted_disks.after, sorted_disks.swap_count]
  · rw [h2]; cases r2; simp_all [sorted_disks.after, sorted_disks.swap_count]

/-- C9: for every `n ≥ 1` and every row of length at least 2 reached from the
row built by `disk_state(n)` by swaps, `sort_alternate`, `sort_lawnmower`,
`is_sorted` and `is_initialized` all run to completion: no `get` or `swap`
they call is handed an index that fails its assert. -/
theorem sorts_stay_in_range (n : Nat) (_hn : 1 ≤ n) (s : disk_state) (hr : reachable n s)
    (hs : 2 ≤ s.total_count) :
    s.total_count = 2 * n
      ∧ (∃ r, sort_alternate s = some r) ∧ (∃ r, sort_lawnmower s = some r)
      ∧ (∃ b, s.is_sorted = some b) ∧ (∃ b, s.is_initialized = some b) := by
  have hlen := reachable_total_count n s hr
  refine ⟨hlen, ?_, ?_, is_sorted_some s, is_initialized_some s⟩
  · obtain ⟨l⟩ := s
    exact ⟨_, sort_alternate_eq l (by simp only [disk_state.total_count] at hs; omega)⟩
  · obtain ⟨l⟩ := s
    exact ⟨_, sort_lawnmower_eq l⟩

/-- C9 at `n = 2`, on the row reached from light, dark, light, dark by `swap(1)`. -/
theorem sorts_stay_in_range_witness :
    (1 ≤ 2) ∧ reachable 2 ⟨[DISK_LIGHT, DISK_LIGHT, DISK_DARK, DISK_DARK]⟩
      ∧ (2 ≤ (disk_state.mk [DISK_LIGHT, DISK_LIGHT, DISK_DARK, DISK_DARK]).total_count)
      ∧ (∃ r, sort_alternate ⟨[DISK_LIGHT, DISK_LIGHT, DISK_DARK, DISK_DARK]⟩ = some r)
      ∧ (∃ r, sort_lawnmower ⟨[DISK_LIGHT, DISK_LIGHT, DISK_DARK, DISK_DARK]⟩ = some r) :=
  have hr : reachable 2 ⟨[DISK_LIGHT, DISK_LIGHT, DISK_DARK, DISK_DARK]⟩ :=
    reachable.swapped ⟨[DISK_LIGHT, DISK_DARK, DISK_LIGHT, DISK_DARK]⟩ _ 1
      (reachable.built _ (by decide)) (by decide)
  have h := sorts_stay_in_range 2 (by decide) _ hr (by decide)
  ⟨by decide, hr, by decide, h.2.1, h.2.2.1⟩

/-! ## The predicate `is_initialized()` -/

theorem is_initialized_loop_step (l : List disk_color) (fuel i : Nat) (hi : i < l.length) :
    (disk_state.mk l).is_initialized_loop (fuel + 1) i
      = if is_initialized_rejects l i then some false
        else (disk_state.mk l).is_initialized_loop fuel (i + 1) := by
  rw [disk_state.is_initialized_loop]
  simp only [disk_state.total_count, if_pos hi]
  obtain ⟨c, hc⟩ : ∃ c, l[i]? = some c := ⟨l[i], by simp [hi]⟩
  simp only [hc, is_initialized_rejects]
  cases c <;> by_cases hp : i % 2 = 0 <;> simp [hp]

theorem is_initialized_loop_spec (l : List disk_color) (fuel : Nat) :
    ∀ i, l.length - i < fuel →
      ((disk_state.mk l).is_initialized_loop fuel i = some true
          ∧ ∀ j, i ≤ j → j < l.length → ¬ is_initialized_rejects l j)
        ∨ ((disk_state.mk l).is_initialized_loop fuel i = some false
          ∧ ∃ j, i ≤ j ∧ j < l.length ∧ is_initialized_rejects l j) := by
  induction fuel with
  | zero => intro i h; omega
  | succ fuel ih =>
    intro i hf
    by_cases hi : i < l.length
    · rw [is_initialized_loop_step l fuel i hi]
      by_cases hr : is_initialized_rejects l i
      · right
        exact ⟨by rw [if_pos hr], i, le_refl _, hi, hr⟩
      · rw [if_neg hr]
        rcases ih (i + 1) (by omega) with ⟨h1, h2⟩ | ⟨h1, j, hj1, hj2, hj3⟩
        · left
          refine ⟨h1, fun j hj1 hj2 => ?_⟩
          by_cases e : j = i
          · rw [e]; exact hr
          · exact h2 j (by omega) hj2
        · right
          exact ⟨h1, j, by omega, hj2, hj3⟩
    · left
      refine ⟨?_, fun j hj1 hj2 => by omega⟩
      rw [disk_state.is_initialized_loop]
      simp [disk_state.total_count, hi]

theorem is_initialized_spec (l : List disk_color) :
    ((disk_state.mk l).is_initialized = some true
        ∧ ∀ j, j < l.length → ¬ is_initialized_rejects l j)
      ∨ ((disk_state.mk l).is_initialized = some false
        ∧ ∃ j, j < l.length ∧ is_initialized_rejects l j) := by
  unfold disk_state.is_initialized
  rcases is_initialized_loop_spec l ((disk_state.mk l).total_count + 1) 0
    (by simp [disk_state.total_count]) with ⟨h1, h2⟩ | ⟨h1, j, _, hj2, hj3⟩
  · exact Or.inl ⟨h1, fun j hj => h2 j (Nat.zero_le _) hj⟩
  · exact Or.inr ⟨h1, j, hj2, hj3⟩

theorem not_rejects_iff_parity (l : List disk_color) (j : Nat) (hj : j < l.length) :
    ¬ is_initialized_rejects l j
      ↔ l[j]? = some (if j % 2 = 0 then DISK_LIGHT else DISK_DARK) := by
  obtain ⟨c, hc⟩ : ∃ c, l[j]? = some c := ⟨l[j], by simp [hj]⟩
  unfold is_initialized_rejects
  cases c <;> by_cases hp : j % 2 = 0 <;> simp [hc, hp]

theorem is_initialized_true_iff (l : List disk_color) :
    (disk_state.mk l).is_initialized = some true
      ↔ ∀ j, j < l.length → l[j]? = some (if j % 2 = 0 then DISK_LIGHT else DISK_DARK) := by
  have key : (∀ j, j < l.length → ¬ is_initialized_rejects l j)
      ↔ ∀ j, j < l.length → l[j]? = some (if j % 2 = 0 then DISK_LIGHT else DISK_DARK) :=
    ⟨fun h j hj => (not_rejects_iff_parity l j hj).mp (h j hj),
      fun h j hj => (not_rejects_iff_parity l j hj).mpr (h j hj)⟩
  rw [← key]
  rcases is_initialized_spec l with ⟨h1, h2⟩ | ⟨h1, j, hj, hr⟩
  · exact ⟨fun _ => h2, fun _ => h1⟩
  · constructor
    · intro ht; rw [h1] at ht; cases Option.some.inj ht
    · intro hall; exact absurd hr (hall j hj)

theorem is_initialized_false_iff (l : List disk_color) :
    (disk_state.mk l).is_initialized = some false
      ↔ ¬ ∀ j, j < l.length → l[j]? = some (if j % 2 = 0 then DISK_LIGHT else DISK_DARK) := by
  rw [← is_initialized_true_iff l]
  rcases is_initialized_spec l with ⟨h1, _⟩ | ⟨h1, _⟩ <;> simp [h1]

/-- C14: on every row `is_initialized()` returns, and it returns `true` if and
only if at every index `i < total_count()` the colour is light when `i` is
even and dark when `i` is odd. -/
theorem is_initialized_iff_alternating (s : disk_state) :
    (s.is_initialized = some true ∨ s.is_initialized = some false)
      ∧ (s.is_initialized = some true ↔
          ∀ i, i < s.total_count →
            s.get i = some (if i % 2 = 0 then DISK_LIGHT else DISK_DARK))
      ∧ (s.is_initialized = some false ↔
          ¬ ∀ i, i < s.total_count →
            s.get i = some (if i % 2 = 0 then DISK_LIGHT else DISK_DARK)) := by
  obtain ⟨l⟩ := s
  refine ⟨?_, ?_, ?_⟩
  · rcases is_initialized_spec l with ⟨h, _⟩ | ⟨h, _⟩
    · exact Or.inl h
    · exact Or.inr h
  · simp only [get_eq_getElem?, disk_state.total_count]
    exact is_initialized_true_iff l
  · simp only [get_eq_getElem?, disk_state.total_count]
    exact is_initialized_false_iff l

theorem swap_eq_of_lt (l : List disk_color) (i : Nat) (h : i + 1 < l.length) :
    ∃ a b, l[i]? = some a ∧ l[i + 1]? = some b
      ∧ (disk_state.mk l).swap i = some ⟨(l.set i b).set (i + 1) a⟩ := by
  have hi : i < l.length := by omega
  refine ⟨l[i], l[i + 1], by simp [hi], by simp [h], ?_⟩
  have h1 : l[i]? = some l[i] := by simp [hi]
  have h2 : l[i + 1]? = some l[i + 1] := by simp [h]
  simp only [disk_state.swap, disk_state.is_index, disk_state.total_count]
  rw [h1, h2]
  simp [hi, h]

theorem swap_eq_none_iff (l : List disk_color) (i : Nat) :
    (disk_state.mk l).swap i = none ↔ l.length ≤ i + 1 := by
  constructor
  · intro hn
    by_contra hc
    obtain ⟨a, b, _, _, hs⟩ := swap_eq_of_lt l i (by omega)
    rw [hs] at hn
    cases hn
  · intro hle
    simp only [disk_state.swap, disk_state.is_index, disk_state.total_count]
    by_cases hi : i < l.length
    · have : ¬ i + 1 < l.length := by omega
      simp [hi, this]
    · simp [hi]

/-- C12: for every row and every index `i` with `i + 1 < total_count()`,
`swap(i)` succeeds; afterwards position `i` holds the colour previously at
`i + 1`, position `i + 1` the colour previously at `i`, every other position
its previous colour, and `total_count()` is unchanged. -/
theorem swap_exchanges_neighbours (s : disk_state) (i : Nat) (h : i + 1 < s.total_count) :
    ∃ s1, s.swap i = some s1
      ∧ s1.get i = s.get (i + 1) ∧ s1.get (i + 1) = s.get i
      ∧ (∀ j, j ≠ i → j ≠ i + 1 → s1.get j = s.get j)
      ∧ s1.total_count = s.total_count := by
  obtain ⟨l⟩ := s
  simp only [disk_state.total_count] at h
  obtain ⟨a, b, ha, hb, hs⟩ := swap_eq_of_lt l i h
  have hi : i < l.length := by omega
  refine ⟨_, hs, ?_, ?_, ?_, ?_⟩
  · rw [get_eq_getElem?, get_eq_getElem?, hb, List.getElem?_set_ne (by omega),
      List.getElem?_set_self hi]
  · rw [get_eq_getElem?, get_eq_getElem?, ha, List.getElem?_set_self (by simpa using h)]
  · intro j h1 h2
    rw [get_eq_getElem?, get_eq_getElem?, List.getElem?_set_ne (by omega),
      List.getElem?_set_ne (by omega)]
  · simp [disk_state.total_count]

/-- C12 on the row light, dark, light, dark with `i = 1`. -/
theorem swap_exchanges_neighbours_witness :
    (1 + 1 < (disk_state.mk [DISK_LIGHT, DISK_DARK, DISK_LIGHT, DISK_DARK]).total_count)
      ∧ (disk_state.mk [DISK_LIGHT, DISK_DARK, DISK_LIGHT, DISK_DARK]).swap 1
          = some ⟨[DISK_LIGHT, DISK_LIGHT, DISK_DARK, DISK_DARK]⟩
      ∧ ∃ s1, (disk_state.mk [DISK_LIGHT, DISK_DARK, DISK_LIGHT, DISK_DARK]).swap 1 = some s1
        ∧ s1.get 1 = (disk_state.mk [DISK_LIGHT, DISK_DARK, DISK_LIGHT, DISK_DARK]).get (1 + 1)
        ∧ s1.get (1 + 1) = (disk_state.mk [DISK_LIGHT, DISK_DARK, DISK_LIGHT, DISK_DARK]).get 1
        ∧ (∀ j, j ≠ 1 → j ≠ 1 + 1 →
            s1.get j = (disk_state.mk [DISK_LIGHT, DISK_DARK, DISK_LIGHT, DISK_DARK]).get j)
        ∧ s1.total_count
            = (disk_state.mk [DISK_LIGHT, DISK_DARK, DISK_LIGHT, DISK_DARK]).total_count :=
  ⟨by decide, by decide,
    swap_exchanges_neighbours ⟨[DISK_LIGHT, DISK_DARK, DISK_LIGHT, DISK_DARK]⟩ 1 (by decide)⟩

theorem swap_run_spec (s : disk_state) (i : Nat) :
    s.swap i = if (s.swap_run i).2 then some (s.swap_run i).1 else none := by
  unfold disk_state.swap disk_state.swap_run
  by_cases h1 : s.is_index i = true
  · by_cases h2 : s.is_index (i + 1) = true
    · simp only [h1, h2, if_true]
      cases s._colors[i]? <;> cases s._colors[i + 1]? <;> simp
    · simp [h1, h2]
  · simp [h1]

theorem swap_run_failed (s : disk_state) (i : Nat) (h : (s.swap_run i).2 = false) :
    (s.swap_run i).1 = s := by
  unfold disk_state.swap_run at h ⊢
  by_cases h1 : s.is_index i = true
  · by_cases h2 : s.is_index (i + 1) = true
    · simp only [h1, h2, if_true] at h ⊢
      cases hA : s._colors[i]? <;> cases hB : s._colors[i + 1]? <;> simp_all
    · simp [h1, h2]
  · simp [h1]

/-- C15: `is_index(i)` is true exactly when `i < total_count()`; `get(i)`
fails exactly when `i >= total_count()`; `swap(i)` fails exactly when
`i + 1 >= total_count()`, and a `swap` that fails has not touched the row;
`disk_state(0)` fails and builds no row. -/
theorem preconditions_fail_fast (s : disk_state) (i : Nat) :
    (s.is_index i = true ↔ i < s.total_count)
      ∧ (s.get i = none ↔ s.total_count ≤ i)
      ∧ (s.swap i = none ↔ s.total_count ≤ i + 1)
      ∧ (s.swap i = none ↔ (s.swap_run i).2 = false)
      ∧ ((s.swap_run i).2 = false → (s.swap_run i).1 = s)
      ∧ disk_state.ctor 0 = none := by
  refine ⟨by simp [disk_state.is_index], ?_, ?_, ?_, swap_run_failed s i, rfl⟩
  · obtain ⟨l⟩ := s
    rw [get_eq_getElem?]
    simp [disk_state.total_count]
  · obtain ⟨l⟩ := s
    exact swap_eq_none_iff l i
  · rw [swap_run_spec]
    cases (s.swap_run i).2 <;> simp

/-- C19: on every colour sequence of length at least 2, `is_sorted()` returns,
and it returns `true` if and only if no index `i < total_count() / 2` holds a
dark disk; the index expression of its second branch is `false`, that is 0, in
every round, and two rows of one length that agree on the lower half get the
same answer. -/
theorem is_sorted_reads_lower_half (s : disk_state) (hs : 2 ≤ s.total_count) :
    (s.is_sorted = some true ↔ ∀ i, i < s.total_count / 2 → s.get i ≠ some DISK_DARK)
      ∧ (s.is_sorted = some false ↔ ∃ i, i < s.total_count / 2 ∧ s.get i = some DISK_DARK)
      ∧ (∀ i, decide (i = DISK_LIGHT.toNat ∧ i > s.total_count / 2) = false)
      ∧ ∀ t : disk_state, t.total_count = s.total_count →
          (∀ i, i < s.total_count / 2 → t.get i = s.get i) → t.is_sorted = s.is_sorted := by
  obtain ⟨l⟩ := s
  simp only [disk_state.total_count] at hs
  have hne : l.length ≠ 1 := by omega
  have light_or : ∀ (m : List disk_color) (i : Nat), i < m.length →
      (m[i]? = some DISK_LIGHT ↔ m[i]? ≠ some DISK_DARK) := by
    intro m i hi
    obtain ⟨c, hc⟩ : ∃ c, m[i]? = some c := ⟨m[i], by simp [hi]⟩
    cases c <;> simp [hc]
  have htrue : ∀ m : List disk_color, 2 ≤ m.length →
      ((disk_state.mk m).is_sorted = some true
        ↔ ∀ i, i < m.length / 2 → m[i]? ≠ some DISK_DARK) := by
    intro m hm
    rw [is_sorted_true_iff m (by omega)]
    exact ⟨fun h i hi => (light_or m i (by omega)).mp (h i hi),
      fun h i hi => (light_or m i (by omega)).mpr (h i hi)⟩
  simp only [get_eq_getElem?, disk_state.total_count]
  refine ⟨htrue l hs, ?_, ?_, ?_⟩
  · rw [is_sorted_false_iff l hne]
    constructor
    · intro h
      by_contra hc
      apply h
      intro j hj
      rw [light_or l j (by omega)]
      intro hd
      exact hc ⟨j, hj, hd⟩
    · rintro ⟨i, hi, hd⟩ hall
      rw [hall i hi] at hd
      cases Option.some.inj hd
  · intro i
    simp only [disk_color.toNat, decide_eq_false_iff_not]
    omega
  · intro t ht hagree
    obtain ⟨m⟩ := t
    simp only [disk_state.total_count] at ht
    simp only [get_eq_getElem?] at hagree
    have hm : 2 ≤ m.length := by omega
    rcases is_sorted_some ⟨l⟩ with ⟨b, hb⟩
    cases b with
    | true =>
      rw [hb, htrue m hm, ht]
      intro i hi
      rw [hagree i hi]
      exact (htrue l hs).mp hb i hi
    | false =>
      rcases is_sorted_some ⟨m⟩ with ⟨b2, hb2⟩
      cases b2 with
      | false => rw [hb, hb2]
      | true =>
        exfalso
        have h1 := (htrue m hm).mp hb2
        have h2 : (disk_state.mk l).is_sorted = some true := by
          rw [htrue l hs]
          intro i hi
          rw [← hagree i hi]
          exact h1 i (by omega)
        rw [hb] at h2
        cases Option.some.inj h2

/-- C19 on the row light, light, dark, light, which has three light disks and
one dark disk and a light disk after the dark one: `is_sorted()` returns
`true`. -/
theorem is_sorted_reads_lower_half_witness :
    (2 ≤ (disk_state.mk [DISK_LIGHT, DISK_LIGHT, DISK_DARK, DISK_LIGHT]).total_count)
      ∧ (disk_state.mk [DISK_LIGHT, DISK_LIGHT, DISK_DARK, DISK_LIGHT]).is_sorted = some true :=
  ⟨by decide,
    (is_sorted_reads_lower_half ⟨[DISK_LIGHT, DISK_LIGHT, DISK_DARK, DISK_LIGHT]⟩
      (by decide)).1.mpr (by decide)⟩

/-! ## The rendering `to_string()` -/

theorem to_string_loop_rest (l : List disk_color) :
    ∀ ss, to_string_loop l false ss
      = ss ++ (l.map (fun c => ' ' :: disk_token c)).flatten := by
  induction l with
  | nil => intro ss; simp [to_string_loop]
  | cons c l ih =>
    intro ss
    rw [to_string_loop]
    simp only [Bool.not_false, if_true]
    rw [ih]
    cases c <;> simp [disk_token]

theorem intercalate_tokens (c : disk_color) (l : List disk_color) :
    [' '].intercalate ((c :: l).map disk_token)
      = disk_token c ++ (l.map (fun c => ' ' :: disk_token c)).flatten := by
  induction l generalizing c with
  | nil => simp [List.intercalate, List.intersperse]
  | cons d l ih =>
    have h := ih d
    simp only [List.intercalate, List.map_cons, List.intersperse, List.flatten_cons] at h ⊢
    rw [h]
    simp

theorem to_string_data (l : List disk_color) :
    (disk_state.mk l).to_string.data = [' '].intercalate (l.map disk_token) := by
  cases l with
  | nil => simp [disk_state.to_string, to_string_loop, List.intercalate, List.intersperse]
  | cons c l =>
    rw [intercalate_tokens]
    simp only [disk_state.to_string, to_string_loop, Bool.not_true]
    rw [to_string_loop_rest]
    cases c <;> simp [disk_token]

theorem to_string_loop_getLast? (l : List disk_color) :
    ∀ (first : Bool) (ss : List Char), ss.getLast? ≠ some ' ' →
      (to_string_loop l first ss).getLast? ≠ some ' ' := by
  induction l with
  | nil => intro first ss h; simpa [to_string_loop] using h
  | cons c l ih =>
    intro first ss _
    rw [to_string_loop]
    apply ih
    cases c <;> simp

theorem space_not_mem_token (c : disk_color) : ' ' ∉ disk_token c := by
  cases c <;> simp [disk_token]

theorem token_color_token (c : disk_color) : token_color (disk_token c) = some c := by
  cases c <;> simp [disk_token, token_color]

theorem splitOn_to_string (l : List disk_color) (h : l ≠ []) :
    (disk_state.mk l).to_string.data.splitOn ' ' = l.map disk_token := by
  rw [to_string_data]
  apply List.splitOn_intercalate
  · intro t ht
    obtain ⟨c, _, rfl⟩ := List.mem_map.mp ht
    exact space_not_mem_token c
  · simpa using h

theorem text_tokens_to_string (l : List disk_color) :
    text_tokens (disk_state.mk l).to_string.data = l.map disk_token := by
  unfold text_tokens
  cases l with
  | nil => simp [disk_state.to_string, to_string_loop]
  | cons c l =>
    rw [splitOn_to_string _ (by simp), List.filter_eq_self]
    intro t ht
    obtain ⟨d, _, rfl⟩ := List.mem_map.mp ht
    cases d <;> simp [disk_token]

theorem parse_to_string (l : List disk_color) :
    (text_tokens (disk_state.mk l).to_string.data).map token_color = l.map some := by
  rw [text_tokens_to_string, List.map_map]
  apply List.map_congr_left
  intro c _
  exact token_color_token c

/-- C16: for every row, `to_string()` is the tokens of its disks in index
order (`L` for light, `D` for dark) joined by single spaces, with no space at
either end; splitting it at the spaces gives back exactly these tokens, and
reading `L` as light and `D` as dark gives back the row's colours, so two rows
with the same `to_string()` are the same row. -/
theorem to_string_round_trip (s : disk_state) :
    s.to_string.data = [' '].intercalate (s._colors.map disk_token)
      ∧ s.to_string.data.head? ≠ some ' ' ∧ s.to_string.data.getLast? ≠ some ' '
      ∧ (s._colors ≠ [] → s.to_string.data.splitOn ' ' = s._colors.map disk_token)
      ∧ (text_tokens s.to_string.data).map token_color = s._colors.map some
      ∧ ∀ t : disk_state, t.to_string = s.to_string → t = s := by
  obtain ⟨l⟩ := s
  refine ⟨to_string_data l, ?_, ?_, splitOn_to_string l, parse_to_string l, ?_⟩
  · cases l with
    | nil => simp [disk_state.to_string, to_string_loop]
    | cons c l =>
      rw [to_string_data, intercalate_tokens]
      cases c <;> simp [disk_token]
  · exact to_string_loop_getLast? l true [] (by simp)
  · intro t ht
    obtain ⟨m⟩ := t
    have h1 := parse_to_string m
    rw [ht, parse_to_string l] at h1
    have : l = m := List.map_injective_iff.mpr (Option.some_injective _) h1
    rw [this]

/-- C16 on the row light, dark, light: the text is `L D L`. -/
theorem to_string_round_trip_witness :
    (disk_state.mk [DISK_LIGHT, DISK_DARK, DISK_LIGHT]).to_string = "L D L"
      ∧ (disk_state.mk [DISK_LIGHT, DISK_DARK, DISK_LIGHT]).to_string.data.splitOn ' '
          = [['L'], ['D'], ['L']] :=
  ⟨by decide,
    (to_string_round_trip ⟨[DISK_LIGHT, DISK_DARK, DISK_LIGHT]⟩).2.2.2.1 (by decide)⟩

/-! ## Inversions -/

theorem left_pass_eq_mirror (l : List disk_color) :
    left_pass l = ((mirror_pass l.reverse).1.reverse, (mirror_pass l.reverse).2) := by
  unfold left_pass
  cases l.reverse <;> simp [mirror_pass]

theorem sweep_right_dark_tail (q : Nat) : ∀ x : disk_color,
    sweep_right x (List.replicate q DISK_DARK) = (x :: List.replicate q DISK_DARK, 0) := by
  induction q with
  | zero => intro x; simp [sweep_right]
  | succ q ih => intro x; simp [List.replicate_succ, sweep_right, ih]

theorem sweep_right_append_dark (q : Nat) : ∀ (a : List disk_color) (x : disk_color),
    sweep_right x (a ++ List.replicate q DISK_DARK)
      = ((sweep_right x a).1 ++ List.replicate q DISK_DARK, (sweep_right x a).2)
  | [], x => by simp [sweep_right_dark_tail, sweep_right]
  | y :: a, x => by
    have ih1 := sweep_right_append_dark q a DISK_DARK
    have ih2 := sweep_right_append_dark q a y
    by_cases h : x = DISK_DARK ∧ y = DISK_LIGHT
    · simp [sweep_right, h, ih1]
    · simp [sweep_right, h, ih2]

theorem sweep_left_light_tail (p : Nat) : ∀ x : disk_color,
    sweep_left x (List.replicate p DISK_LIGHT) = (x :: List.replicate p DISK_LIGHT, 0) := by
  induction p with
  | zero => intro x; simp [sweep_left]
  | succ p ih => intro x; simp [List.replicate_succ, sweep_left, ih]

theorem sweep_left_append_light (p : Nat) : ∀ (a : List disk_color) (x : disk_color),
    sweep_left x (a ++ List.replicate p DISK_LIGHT)
      = ((sweep_left x a).1 ++ List.replicate p DISK_LIGHT, (sweep_left x a).2)
  | [], x => by simp [sweep_left_light_tail, sweep_left]
  | y :: a, x => by
    have ih1 := sweep_left_append_light p a DISK_LIGHT
    have ih2 := sweep_left_append_light p a y
    by_cases h : x = DISK_LIGHT ∧ y = DISK_DARK
    · simp [sweep_left, h, ih1]
    · simp [sweep_left, h, ih2]

theorem right_pass_cons_light (l : List disk_color) :
    right_pass (DISK_LIGHT :: l) = (DISK_LIGHT :: (right_pass l).1, (right_pass l).2) := by
  cases l <;> simp [right_pass, sweep_right]

theorem mirror_pass_cons_dark (l : List disk_color) :
    mirror_pass (DISK_DARK :: l) = (DISK_DARK :: (mirror_pass l).1, (mirror_pass l).2) := by
  cases l <;> simp [mirror_pass, sweep_left]

theorem right_pass_framed (p q : Nat) (m : List disk_color) :
    right_pass (framed p m q) = (framed p (right_pass m).1 q, (right_pass m).2) := by
  unfold framed
  induction p with
  | zero =>
    cases m with
    | nil =>
      have h := separated_in_order 0 q
      simp only [separated, List.replicate_zero, List.nil_append] at h
      have h2 := right_pass_in_order _ h
      have h3 : right_pass ([] : List disk_color) = ([], 0) := rfl
      simp only [List.replicate_zero, List.nil_append, h2, h3]
    | cons x a => simp [right_pass, sweep_right_append_dark]
  | succ p ih =>
    rw [List.replicate_succ, List.cons_append, right_pass_cons_light, ih]
    simp

theorem mirror_pass_framed (p q : Nat) (m : List disk_color) :
    mirror_pass (List.replicate q DISK_DARK ++ (m ++ List.replicate p DISK_LIGHT))
      = (List.replicate q DISK_DARK ++ ((mirror_pass m).1 ++ List.replicate p DISK_LIGHT),
          (mirror_pass m).2) := by
  induction q with
  | zero =>
    cases m with
    | nil =>
      cases p with
      | zero => simp [mirror_pass]
      | succ p => simp [mirror_pass, List.replicate_succ, sweep_left_light_tail]
    | cons x a => simp [mirror_pass, sweep_left_append_light]
  | succ q ih =>
    rw [List.replicate_succ, List.cons_append, mirror_pass_cons_dark, ih]
    simp

theorem left_pass_framed (p q : Nat) (m : List disk_color) :
    left_pass (framed p m q) = (framed p (left_pass m).1 q, (left_pass m).2) := by
  rw [left_pass_eq_mirror, left_pass_eq_mirror]
  unfold framed
  simp only [List.reverse_append, List.reverse_replicate, List.append_assoc]
  rw [mirror_pass_framed]
  simp

theorem lawnmower_pass_framed (p q : Nat) (m : List disk_color) (c : Nat) :
    (lawnmower_pass (framed p m q, c)).1 = framed p (lawnmower_pass (m, 0)).1 q := by
  simp only [lawnmower_pass, right_pass_framed, left_pass_framed]

theorem sweep_right_ends_dark : ∀ (a : List disk_color) (x : disk_color),
    DISK_DARK ∈ x :: a → ∃ b, (sweep_right x a).1 = b ++ [DISK_DARK]
  | [], x, h => by
    have : x = DISK_DARK := by
      rcases List.mem_cons.mp h with h1 | h1
      · exact h1.symm
      · simp at h1
    exact ⟨[], by simp [sweep_right, this]⟩
  | y :: a, x, h => by
    by_cases hxy : x = DISK_DARK ∧ y = DISK_LIGHT
    · obtain ⟨b, hb⟩ := sweep_right_ends_dark a DISK_DARK (by simp)
      exact ⟨DISK_LIGHT :: b, by simp [sweep_right, hxy, hb]⟩
    · have hy : DISK_DARK ∈ y :: a := by
        rcases List.mem_cons.mp h with h1 | h1
        · cases y with
          | DISK_DARK => simp
          | DISK_LIGHT => exact absurd ⟨h1.symm, rfl⟩ hxy
        · exact h1
      obtain ⟨b, hb⟩ := sweep_right_ends_dark a y hy
      exact ⟨x :: b, by simp [sweep_right, hxy, hb]⟩

theorem sweep_left_ends_light : ∀ (a : List disk_color) (x : disk_color),
    DISK_LIGHT ∈ x :: a → ∃ b, (sweep_left x a).1 = b ++ [DISK_LIGHT]
  | [], x, h => by
    have : x = DISK_LIGHT := by
      rcases List.mem_cons.mp h with h1 | h1
      · exact h1.symm
      · simp at h1
    exact ⟨[], by simp [sweep_left, this]⟩
  | y :: a, x, h => by
    by_cases hxy : x = DISK_LIGHT ∧ y = DISK_DARK
    · obtain ⟨b, hb⟩ := sweep_left_ends_light a DISK_LIGHT (by simp)
      exact ⟨DISK_DARK :: b, by simp [sweep_left, hxy, hb]⟩
    · have hy : DISK_LIGHT ∈ y :: a := by
        rcases List.mem_cons.mp h with h1 | h1
        · cases y with
          | DISK_LIGHT => simp
          | DISK_DARK => exact absurd ⟨h1.symm, rfl⟩ hxy
        · exact h1
      obtain ⟨b, hb⟩ := sweep_left_ends_light a y hy
      exact ⟨x :: b, by simp [sweep_left, hxy, hb]⟩

theorem right_pass_ends_dark (m : List disk_color) (h : DISK_DARK ∈ m) :
    ∃ b, (right_pass m).1 = b ++ [DISK_DARK] := by
  cases m with
  | nil => simp at h
  | cons x a => exact sweep_right_ends_dark a x h

theorem left_pass_starts_light (m : List disk_color) (h : DISK_LIGHT ∈ m) :
    ∃ b, (left_pass m).1 = DISK_LIGHT :: b := by
  rw [left_pass_eq_mirror]
  cases hr : m.reverse with
  | nil =>
    have : m = [] := by simpa using hr
    rw [this] at h
    simp at h
  | cons x a =>
    have hx : DISK_LIGHT ∈ x :: a := by
      rw [← hr]; exact List.mem_reverse.mpr h
    obtain ⟨b, hb⟩ := sweep_left_ends_light a x hx
    exact ⟨b.reverse, by simp [mirror_pass, hb]⟩

/-- One pass of `sort_lawnmower` on a stretch that holds both colours puts a
light disk at its left end and a dark disk at its right end. -/
theorem lawnmower_pass_both (m : List disk_color) (hL : DISK_LIGHT ∈ m) (hD : DISK_DARK ∈ m) :
    ∃ b, (lawnmower_pass (m, 0)).1 = DISK_LIGHT :: (b ++ [DISK_DARK])
      ∧ b.length + 2 = m.length := by
  obtain ⟨a, ha⟩ := right_pass_ends_dark m hD
  have hLa : DISK_LIGHT ∈ a := by
    have h1 : DISK_LIGHT ∈ (right_pass m).1 := (right_pass_perm m).mem_iff.mpr hL
    rw [ha] at h1
    rcases List.mem_append.mp h1 with h2 | h2
    · exact h2
    · simp at h2
  obtain ⟨b, hb⟩ := left_pass_starts_light a hLa
  have hf : a ++ [DISK_DARK] = framed 0 a 1 := by simp [framed]
  have hres : (lawnmower_pass (m, 0)).1 = DISK_LIGHT :: (b ++ [DISK_DARK]) := by
    simp only [lawnmower_pass]
    rw [ha, hf, left_pass_framed, hb]
    simp [framed]
  refine ⟨b, hres, ?_⟩
  have hlen := (lawnmower_pass_perm (m, 0)).length_eq
  rw [hres] at hlen
  simp at hlen
  omega

theorem framed_in_order (p q : Nat) (m : List disk_color)
    (h : DISK_DARK ∉ m ∨ DISK_LIGHT ∉ m) : (framed p m q).Pairwise in_order := by
  unfold framed
  rw [List.pairwise_append, List.pairwise_append]
  refine ⟨?_, ⟨?_, ?_, ?_⟩, ?_⟩
  · rw [List.pairwise_replicate]
    right; intro hh; cases hh.1
  · apply List.pairwise_of_forall_mem_list
    intro a ha b hb hab
    rcases h with h | h
    · exact h (hab.1 ▸ ha)
    · exact h (hab.2 ▸ hb)
  · rw [List.pairwise_replicate]
    right; intro hh; cases hh.2
  · intro a _ b hb hab
    rw [List.eq_of_mem_replicate hb] at hab
    cases hab.2
  · intro a ha b _ hab
    rw [List.eq_of_mem_replicate ha] at hab
    cases hab.1

theorem framed_shift (p q : Nat) (b : List disk_color) :
    framed p (DISK_LIGHT :: (b ++ [DISK_DARK])) q = framed (p + 1) b (q + 1) := by
  unfold framed
  rw [List.cons_append, replicate_append_cons]
  simp [List.replicate_succ]

/-- On a framed row whose middle stretch has at most `2k + 1` disks, `k`
passes of `sort_lawnmower` leave no dark disk before a light one. -/
theorem lawnmower_passes_framed : ∀ (k p q : Nat) (m : List disk_color) (c : Nat),
    m.length ≤ 2 * k + 1 → (lawnmower_passes k (framed p m q, c)).1.Pairwise in_order := by
  intro k
  induction k with
  | zero =>
    intro p q m c hm
    rw [lawnmower_passes]
    apply framed_in_order
    match m, hm with
    | [], _ => left; simp
    | [x], _ => cases x <;> simp
  | succ k ih =>
    intro p q m c hm
    by_cases hboth : DISK_LIGHT ∈ m ∧ DISK_DARK ∈ m
    · obtain ⟨b, hb, hlen⟩ := lawnmower_pass_both m hboth.1 hboth.2
      have hstep : lawnmower_pass (framed p m q, c)
          = (framed (p + 1) b (q + 1), (lawnmower_pass (framed p m q, c)).2) := by
        apply Prod.ext
        · rw [lawnmower_pass_framed, hb, framed_shift]
        · rfl
      rw [lawnmower_passes, hstep]
      exact ih (p + 1) (q + 1) b _ (by omega)
    · have hmono : DISK_DARK ∉ m ∨ DISK_LIGHT ∉ m := by
        by_contra hc
        push_neg at hc
        exact hboth ⟨hc.2, hc.1⟩
      have hp := framed_in_order p q m hmono
      rw [lawnmower_passes_in_order _ hp.chain']
      exact hp

theorem in_order_explicit : ∀ l : List disk_color, l.Pairwise in_order →
    l = List.replicate (l.count DISK_LIGHT) DISK_LIGHT
      ++ List.replicate (l.count DISK_DARK) DISK_DARK
  | [], _ => by simp
  | x :: t, h => by
    have ht := in_order_explicit t (List.pairwise_cons.mp h).2
    cases x with
    | DISK_LIGHT =>
      simp only [List.count_cons_self, List.replicate_succ, List.cons_append]
      rw [List.count_cons_of_ne (by decide)]
      rw [← ht]
    | DISK_DARK =>
      have hno : DISK_LIGHT ∉ t := fun hm => (List.pairwise_cons.mp h).1 _ hm ⟨rfl, rfl⟩
      have h0 : t.count DISK_LIGHT = 0 := List.count_eq_zero.mpr hno
      rw [h0] at ht
      simp only [List.count_cons_self, List.replicate_succ]
      rw [List.count_cons_of_ne (by decide), h0]
      simp only [List.replicate_zero, List.nil_append] at ht ⊢
      rw [← ht]

/-- C18: for every input row of length at least 2, whatever its arrangement,
`sort_lawnmower` returns a row in which every light disk precedes every dark
disk: its `light_count() = total_count() / 2` passes are enough.  The row
returned is the light disks of the input followed by its dark disks. -/
theorem sort_lawnmower_sorts_any (s : disk_state) (_hs : 2 ≤ s.total_count) :
    ∃ r, sort_lawnmower s = some r
      ∧ (∀ i j, r.after.get i = some DISK_LIGHT → r.after.get j = some DISK_DARK → i < j)
      ∧ r.after._colors
          = List.replicate (s._colors.count DISK_LIGHT) DISK_LIGHT
            ++ List.replicate (s._colors.count DISK_DARK) DISK_DARK := by
  obtain ⟨l⟩ := s
  have hf : l = framed 0 l 0 := by simp [framed]
  have hp : (lawnmower_passes (l.length / 2) (l, 0)).1.Pairwise in_order := by
    have := lawnmower_passes_framed (l.length / 2) 0 0 l 0 (by omega)
    rw [← hf] at this
    exact this
  have hperm := lawnmower_passes_perm (l.length / 2) (l, 0)
  refine ⟨_, sort_lawnmower_eq l, ?_, ?_⟩
  · intro i j hi hj
    simp only [sorted_disks.after, get_eq_getElem?] at hi hj
    rw [List.pairwise_iff_getElem] at hp
    obtain ⟨hi1, hi2⟩ := List.getElem?_eq_some_iff.mp hi
    obtain ⟨hj1, hj2⟩ := List.getElem?_eq_some_iff.mp hj
    by_contra hij
    have hne : i ≠ j := by
      intro e
      subst e
      rw [hi2] at hj2
      cases hj2
    have := hp j i hj1 hi1 (by omega)
    rw [hi2, hj2] at this
    exact this ⟨rfl, rfl⟩
  · have := in_order_explicit _ hp
    simp only [sorted_disks.after]
    rw [hperm.count_eq, hperm.count_eq] at this
    exact this

/-- C18 on the row dark, dark, light, light, dark, light. -/
theorem sort_lawnmower_sorts_any_witness :
    (2 ≤ (disk_state.mk
        [DISK_DARK, DISK_DARK, DISK_LIGHT, DISK_LIGHT, DISK_DARK, DISK_LIGHT]).total_count)
      ∧ (sort_lawnmower
          ⟨[DISK_DARK, DISK_DARK, DISK_LIGHT, DISK_LIGHT, DISK_DARK, DISK_LIGHT]⟩).map
            sorted_disks.after
          = some ⟨[DISK_LIGHT, DISK_LIGHT, DISK_LIGHT, DISK_DARK, DISK_DARK, DISK_DARK]⟩
      ∧ ∃ r, sort_lawnmower
          ⟨[DISK_DARK, DISK_DARK, DISK_LIGHT, DISK_LIGHT, DISK_DARK, DISK_LIGHT]⟩ = some r
        ∧ ∀ i j, r.after.get i = some DISK_LIGHT → r.after.get j = some DISK_DARK → i < j := by
  obtain ⟨r, h1, h2, _⟩ := sort_lawnmower_sorts_any
    ⟨[DISK_DARK, DISK_DARK, DISK_LIGHT, DISK_LIGHT, DISK_DARK, DISK_LIGHT]⟩ (by decide)
  exact ⟨by decide, by decide, r, h1, h2⟩

end Disks
